import Mathlib

/-!
Verification of the object-renaming utilities of RhinoToolkit
(`rename_objects.py`, `view_object_names.py`).

The embedding models a Rhino document as a list of objects carrying a GUID
string, a name (the empty string models an unnamed object, i.e. a `None`
result of `rs.ObjectName`), and the hidden/locked/selected flags used by the
filtering options.  The host API calls are replaced by pure operations on that
list:

* `rs.ObjectName(id)`        — field lookup on the object
* `rs.ObjectName(id, name)`  — an entry in an update list, applied by
                               `applyUpdates`
* `rs.AllObjects` / `get_model_space_objects` — the document list itself
* `rs.SelectedObjects`       — filtering on the `selected` flag
* `rs.IsHidden` / `rs.IsObjectLocked` — the `hidden` / `locked` flags

Python's `set` of names is modelled by `Finset String`, its insertion-ordered
`dict` of counts by an association list, and the two unbounded `while True`
candidate-search loops by fuelled recursion returning `Option`.  The numeric
suffix format string (eg `" {num:03d}"`) is modelled by a function
`Nat → String` producing the formatted suffix.
-/

namespace RhinoToolkit

/-- A Rhino document object: GUID string, current name (`""` = unnamed),
and the flags the filters consult. -/
structure RObj where
  id : String
  name : String
  hidden : Bool
  locked : Bool
  selected : Bool
deriving DecidableEq

/-- The Python idiom `nm or "Object"` applied to an object name
(`rename_objects.py` lines 123 and 211). -/
def fallbackName (nm : String) : String := if nm = "" then "Object" else nm

/-- Truthiness of `(rs.ObjectName(obj_id) or "").strip()`: the name contains a
non-whitespace character. -/
def strippedTruthy (nm : String) : Bool := nm.data.any (fun c => !c.isWhitespace)

/-- One iteration of the counting loop
`name_counts[nm] = name_counts.get(nm, 0) + 1` on an insertion-ordered dict. -/
def bumpCount : List (String × Nat) → String → List (String × Nat)
  | [], nm => [(nm, 1)]
  | (k, c) :: rest, nm =>
      if k = nm then (k, c + 1) :: rest else (k, c) :: bumpCount rest nm

/-- The census dict built by the counting loop, in insertion order. -/
def buildNameCounts (names : List String) : List (String × Nat) :=
  names.foldl bumpCount []

/-- The count recorded for `s` in an association-list dict (`0` when absent),
i.e. Python's `d.get(s, 0)`. -/
def countsOf (d : List (String × Nat)) (s : String) : Nat :=
  (d.lookup s).getD 0

/-- `_build_used_name_set`: all non-empty names in the document. -/
def _build_used_name_set (doc : List RObj) : Finset String :=
  ((doc.filter (fun o => o.name != "")).map (fun o => o.name)).toFinset

/-- `for nm in name_counts: if nm: used_names.add(nm)`
(`rename_objects.py` lines 250-252). -/
def addWorkingNames (used : Finset String) (counts : List (String × Nat)) : Finset String :=
  counts.foldl (fun u p => if p.1 ≠ "" then insert p.1 u else u) used

/-- The state threaded through `_next_unique_with_cache`: the cached used-name
set and `next_suffix_dict`.  The dict is modelled as a total function because
the code only reads it through `.get(base, 1)`; the initial dict is the
constant function `1`. -/
structure UniqState where
  used : Finset String
  next_suffix : String → Nat

/-- The `while True` candidate search of `_next_unique_with_cache`
(lines 127-133), fuelled: from suffix `n`, return the first candidate
`base + fmt n` not in `used`, together with the suffix that produced it. -/
def _next_unique_search (base : String) (fmt : Nat → String) (used : Finset String) :
    Nat → Nat → Option (String × Nat)
  | _, 0 => none
  | n, fuel + 1 =>
      let candidate := base ++ fmt n
      if candidate ∈ used then _next_unique_search base fmt used (n + 1) fuel
      else some (candidate, n)

/-- `_next_unique_with_cache`: substitute the fallback base, search from the
recorded suffix (default 1), reserve the winning candidate in `used` and
advance the cursor to `n + 1`. -/
def _next_unique_with_cache (base0 : String) (fmt : Nat → String) (st : UniqState)
    (fuel : Nat) : Option (String × UniqState) :=
  let base := fallbackName base0
  match _next_unique_search base fmt st.used (st.next_suffix base) fuel with
  | none => none
  | some (candidate, n) =>
      some (candidate, ⟨insert candidate st.used, Function.update st.next_suffix base (n + 1)⟩)

/-- `name_in_use`: `rs.ObjectsByName(name)` is non-empty. -/
def name_in_use (doc : List RObj) (name : String) : Bool :=
  doc.any (fun o => o.name == name)

/-- The `while True` loop of `next_unique_name` (lines 73-78), fuelled. -/
def next_unique_name_search (doc : List RObj) (base : String) (fmt : Nat → String) :
    Nat → Nat → Option String
  | _, 0 => none
  | n, fuel + 1 =>
      let candidate := base ++ fmt n
      if name_in_use doc candidate then next_unique_name_search doc base fmt (n + 1) fuel
      else some candidate

/-- `next_unique_name`: the compatibility uniquifier that queries the live
document; returns the (fallback-substituted) base unchanged when unused. -/
def next_unique_name (doc : List RObj) (base0 : String) (fmt : Nat → String)
    (start_at : Nat) (fuel : Nat) : Option String :=
  let base := fallbackName base0
  if !(name_in_use doc base) then some base
  else next_unique_name_search doc base fmt start_at fuel

/-- Lexicographic strict comparison on code-point lists, the order Python uses
to compare strings. -/
def lexLt : List Char → List Char → Bool
  | [], [] => false
  | [], _ :: _ => true
  | _ :: _, [] => false
  | a :: s, b :: t => if a < b then true else if a = b then lexLt s t else false

/-- Strict string comparison, Python style. -/
def strLt (a b : String) : Bool := lexLt a.data b.data

/-- Python's tuple comparison on the sort key
`(name_by_id[i], str(i))` = (cached census name, GUID string), non-strict. -/
def keyLe (a b : RObj) : Prop :=
  strLt (fallbackName a.name) (fallbackName b.name) = true ∨
    (fallbackName a.name = fallbackName b.name ∧ (strLt a.id b.id = true ∨ a.id = b.id))

instance : DecidableRel keyLe := fun a b => by unfold keyLe; infer_instance

/-- The per-object state of the renaming loop (lines 277-309). -/
structure LoopSt where
  uniq : UniqState
  assigned_base_once : Finset String
  renamed : Nat
  would_rename : Nat
  updates : List (String × String)

/-- The `# Determine new name` block (lines 286-296): pick the new name for a
duplicate-group member, returning the updated uniquifier state and
`assigned_base_once` set. -/
def determineNewName (fmt : Nat → String) (fuel : Nat) (uniq : UniqState)
    (assigned : Finset String) (base : String) :
    Option (String × UniqState × Finset String) :=
  if base ∉ assigned then
    if base ∉ uniq.used then
      some (base, ⟨insert base uniq.used, uniq.next_suffix⟩, insert base assigned)
    else
      match _next_unique_with_cache base fmt uniq fuel with
      | none => none
      | some (nn, u) => some (nn, u, insert base assigned)
  else
    match _next_unique_with_cache base fmt uniq fuel with
    | none => none
    | some (nn, u) => some (nn, u, assigned)

/-- The body of the renaming loop for one object (lines 279-309):
skip non-duplicate names, pick the new name through the first-assignment
branch or the cached uniquifier, then count / record the rename. -/
def renameStep (dup_names : List (String × Nat)) (fmt : Nat → String)
    (dry_run : Bool) (fuel : Nat) (st : LoopSt) (o : RObj) : Option LoopSt :=
  let base := fallbackName o.name
  if (dup_names.lookup base).isSome = false then some st
  else
    match determineNewName fmt fuel st.uniq st.assigned_base_once base with
    | none => none
    | some (new_name, uniq, assigned) =>
        let current := base
        if current ≠ new_name then
          if dry_run then
            some ⟨uniq, assigned, st.renamed, st.would_rename + 1, st.updates⟩
          else
            some ⟨uniq, assigned, st.renamed + 1, st.would_rename,
                  st.updates ++ [(o.id, new_name)]⟩
        else
          some ⟨uniq, assigned, st.renamed, st.would_rename, st.updates⟩

/-- The renaming loop over the sorted working set. -/
def renameLoop (dup_names : List (String × Nat)) (fmt : Nat → String)
    (dry_run : Bool) (fuel : Nat) : List RObj → LoopSt → Option LoopSt
  | [], st => some st
  | o :: rest, st =>
      match renameStep dup_names fmt dry_run fuel st o with
      | none => none
      | some st' => renameLoop dup_names fmt dry_run fuel rest st'

/-- Whether the loop treats `o` as a duplicate-group member:
`base in dup_names` for the cached census name. -/
def isDupB (dup_names : List (String × Nat)) (o : RObj) : Bool :=
  (dup_names.lookup (fallbackName o.name)).isSome

/-- One `rs.ObjectName(obj_id, new_name)` mutation. -/
def setObjName (p : String × String) (o : RObj) : RObj :=
  if o.id = p.1 then { o with name := p.2 } else o

/-- Apply the recorded mutations to the document, in order. -/
def applyUpdates (doc : List RObj) (updates : List (String × String)) : List RObj :=
  updates.foldl (fun d p => d.map (setObjName p)) doc

/-- The cumulative effect of the recorded mutations on a single object. -/
def assignAll (updates : List (String × String)) (o : RObj) : RObj :=
  updates.foldl (fun o p => setObjName p o) o

/-- What a call to `rename_objects_unique` produces: the returned pair
(`returned`, `stats`), the document after the call, the two internal counters
(`would_rename` is what a dry run prints), the applied mutations, and the
early-return report line when one was printed. -/
structure RenameOutcome where
  returned : Nat
  stats : List (String × Nat)
  doc : List RObj
  renamed : Nat
  would_rename : Nat
  updates : List (String × String)
  message : Option String
deriving DecidableEq

/-- The two optional filters of `rename_objects_unique` (lines 190-198), in
the code's order: drop unnamed objects, then drop hidden/locked objects. -/
def applyNameFilters (ids : List RObj) (include_unnamed include_hidden : Bool) : List RObj :=
  let ids1 := if include_unnamed then ids else ids.filter (fun o => strippedTruthy o.name)
  if include_hidden then ids1 else ids1.filter (fun o => !o.hidden && !o.locked)

/-- `rename_objects_unique`, fuelled through the candidate searches.
`fmt` models the `suffix_fmt` format string. -/
def rename_objects_unique (doc : List RObj)
    (selected_only include_unnamed include_hidden dry_run : Bool)
    (fmt : Nat → String) (fuel : Nat) : Option RenameOutcome :=
  let ids := if selected_only then doc.filter (fun o => o.selected) else doc
  if ids.isEmpty then
    some ⟨0, [], doc, 0, 0, [], some "No objects found."⟩
  else
    let ids2 := applyNameFilters ids include_unnamed include_hidden
    if ids2.isEmpty then
      some ⟨0, [], doc, 0, 0, [], some "No named objects found."⟩
    else
      let name_counts := buildNameCounts (ids2.map (fun o => fallbackName o.name))
      let dup_names := name_counts.filter (fun p => p.2 > 1)
      if dup_names.isEmpty then
        some ⟨0, name_counts, doc, 0, 0, [], none⟩
      else
        let used0 := addWorkingNames (_build_used_name_set doc) name_counts
        let ids_sorted := List.insertionSort keyLe ids2
        match renameLoop dup_names fmt dry_run fuel ids_sorted
            ⟨⟨used0, fun _ => 1⟩, ∅, 0, 0, []⟩ with
        | none => none
        | some st =>
            if dry_run then
              some ⟨0, name_counts, doc, st.renamed, st.would_rename, st.updates, none⟩
            else
              some ⟨st.renamed, name_counts, applyUpdates doc st.updates,
                    st.renamed, st.would_rename, st.updates, none⟩

/-- The working set actually traversed by `rename_objects_unique` (scope plus
the two optional filters, in the code's order). -/
def workingSet (doc : List RObj) (selected_only include_unnamed include_hidden : Bool) :
    List RObj :=
  applyNameFilters (if selected_only then doc.filter (fun o => o.selected) else doc)
    include_unnamed include_hidden

/-- The census name list of a run's working set: the cached `name_by_id`
values, with the unnamed fallback applied. -/
def censusNames (doc : List RObj) (selected_only include_unnamed include_hidden : Bool) :
    List String :=
  (workingSet doc selected_only include_unnamed include_hidden).map
    (fun o => fallbackName o.name)

/-- The `dup_names` dict of a run. -/
def dupNamesOf (doc : List RObj) (selected_only include_unnamed include_hidden : Bool) :
    List (String × Nat) :=
  (buildNameCounts (censusNames doc selected_only include_unnamed include_hidden)).filter
    (fun p => p.2 > 1)

/-- The initial used-name set of a run: all document names plus the working
set's census names. -/
def usedInit (doc : List RObj) (selected_only include_unnamed include_hidden : Bool) :
    Finset String :=
  addWorkingNames (_build_used_name_set doc)
    (buildNameCounts (censusNames doc selected_only include_unnamed include_hidden))

/-- `get_object_name_stats` from `view_object_names.py`: returns
`(name_counts, duplicates, ids)`.  Note: the counting loop uses the raw
`rs.ObjectName` result (here the raw `name` field), with no fallback. -/
def get_object_name_stats (doc : List RObj)
    (selected_only include_unnamed include_hidden : Bool) :
    List (String × Nat) × List (String × Nat) × List RObj :=
  let ids := if selected_only then doc.filter (fun o => o.selected) else doc
  if ids.isEmpty then ([], [], [])
  else
    let ids1 := if include_hidden then ids else ids.filter (fun o => !o.hidden && !o.locked)
    let ids2 := if include_unnamed then ids1 else ids1.filter (fun o => strippedTruthy o.name)
    let name_counts := buildNameCounts (ids2.map (fun o => o.name))
    let duplicates := name_counts.filter (fun p => p.2 > 1)
    (name_counts, duplicates, ids2)

/-- Zero-pad a decimal representation to width 3: Python's `"{num:03d}"`. -/
def padZero3 (n : Nat) : String :=
  let s := toString n
  if s.length < 3 then String.mk (List.replicate (3 - s.length) '0') ++ s else s

/-- The default suffix format `" {num:03d}"`. -/
def default_suffix_fmt (n : Nat) : String := " " ++ padZero3 n

/-! ### Basic string and order lemmas -/

theorem String.ext_of_data {a b : String} (h : a.data = b.data) : a = b := by
  cases a; cases b; exact congrArg String.mk h

theorem fallbackName_ne_empty (nm : String) : fallbackName nm ≠ "" := by
  unfold fallbackName
  split
  · intro h; exact absurd h (by decide)
  · assumption

theorem append_ne_empty_of_left {a b : String} (ha : a ≠ "") : a ++ b ≠ "" := by
  intro h
  apply ha
  apply String.ext_of_data
  have hd : (a ++ b).data = a.data ++ b.data := String.data_append a b
  rw [h] at hd
  have : a.data = [] := by
    cases hx : a.data with
    | nil => rfl
    | cons c cs => rw [hx] at hd; simp at hd
  exact this

theorem string_append_left_cancel {a b c : String} (h : a ++ b = a ++ c) : b = c := by
  apply String.ext_of_data
  have hd := congrArg String.data h
  rw [String.data_append, String.data_append] at hd
  exact List.append_cancel_left hd

theorem lexLt_irrefl : ∀ a : List Char, lexLt a a = false
  | [] => rfl
  | c :: s => by
      simp only [lexLt, lt_irrefl, if_false, if_pos rfl, lexLt_irrefl s, if_true]

theorem lexLt_trans : ∀ {a b c : List Char},
    lexLt a b = true → lexLt b c = true → lexLt a c = true
  | [], b, c, hab, hbc => by
      cases b with
      | nil => simp [lexLt] at hab
      | cons y t =>
          cases c with
          | nil => simp [lexLt] at hbc
          | cons z u => rfl
  | _ :: _, [], _, hab, _ => by simp [lexLt] at hab
  | _ :: _, _ :: _, [], _, hbc => by simp [lexLt] at hbc
  | x :: s, y :: t, z :: u, hab, hbc => by
      simp only [lexLt] at hab hbc ⊢
      by_cases hxy : x < y
      · by_cases hyz : y < z
        · simp [lt_trans hxy hyz]
        · simp only [if_neg hyz] at hbc
          by_cases hyz2 : y = z
          · simp [hyz2 ▸ hxy]
          · simp [hyz2] at hbc
      · simp only [if_neg hxy] at hab
        by_cases hxy2 : x = y
        · simp only [if_pos hxy2] at hab
          by_cases hyz : y < z
          · simp [hxy2 ▸ hyz]
          · simp only [if_neg hyz] at hbc
            by_cases hyz2 : y = z
            · have : x = z := hxy2.trans hyz2
              have hxz : ¬ x < z := this ▸ lt_irrefl x
              simp only [if_neg hxz, if_pos this]
              simp only [if_pos hyz2] at hbc
              exact lexLt_trans hab hbc
            · simp [hyz2] at hbc
        · simp [hxy2] at hab

theorem lexLt_eq_of_not_lt : ∀ {a b : List Char},
    lexLt a b = false → lexLt b a = false → a = b
  | [], [], _, _ => rfl
  | [], _ :: _, hab, _ => by simp [lexLt] at hab
  | _ :: _, [], _, hba => by simp [lexLt] at hba
  | x :: s, y :: t, hab, hba => by
      simp only [lexLt] at hab hba
      by_cases hxy : x < y
      · simp [hxy] at hab
      · by_cases hyx : y < x
        · simp [hyx] at hba
        · have hxy2 : x = y := le_antisymm (not_lt.mp hyx) (not_lt.mp hxy)
          simp only [if_neg hxy, if_pos hxy2] at hab
          simp only [if_neg hyx, if_pos hxy2.symm] at hba
          rw [hxy2, lexLt_eq_of_not_lt hab hba]

theorem lexLt_asymm {a b : List Char} (h : lexLt a b = true) : lexLt b a = false := by
  by_contra hc
  have hba : lexLt b a = true := by
    cases hx : lexLt b a
    · exact absurd hx hc
    · rfl
  have := lexLt_trans h hba
  rw [lexLt_irrefl] at this
  exact Bool.noConfusion this

theorem strLt_trans {a b c : String} (hab : strLt a b = true) (hbc : strLt b c = true) :
    strLt a c = true := lexLt_trans hab hbc

theorem strLt_eq_of_not_lt {a b : String} (hab : strLt a b = false)
    (hba : strLt b a = false) : a = b :=
  String.ext_of_data (lexLt_eq_of_not_lt hab hba)

theorem strLt_asymm {a b : String} (h : strLt a b = true) : strLt b a = false :=
  lexLt_asymm h

theorem strLt_irrefl (a : String) : strLt a a = false := lexLt_irrefl a.data

instance : IsTrans RObj keyLe := by
  constructor
  intro a b c hab hbc
  rcases hab with h1 | ⟨h1, h1'⟩
  · rcases hbc with h2 | ⟨h2, _⟩
    · exact Or.inl (strLt_trans h1 h2)
    · exact Or.inl (h2 ▸ h1)
  · rcases hbc with h2 | ⟨h2, h2'⟩
    · exact Or.inl (h1 ▸ h2)
    · refine Or.inr ⟨h1.trans h2, ?_⟩
      rcases h1' with h3 | h3
      · rcases h2' with h4 | h4
        · exact Or.inl (strLt_trans h3 h4)
        · exact Or.inl (h4 ▸ h3)
      · rcases h2' with h4 | h4
        · exact Or.inl (h3 ▸ h4)
        · exact Or.inr (h3.trans h4)

instance : IsTotal RObj keyLe := by
  constructor
  intro a b
  cases hn : strLt (fallbackName a.name) (fallbackName b.name)
  · cases hn' : strLt (fallbackName b.name) (fallbackName a.name)
    · have heq := strLt_eq_of_not_lt hn hn'
      cases hi : strLt a.id b.id
      · cases hi' : strLt b.id a.id
        · exact Or.inl (Or.inr ⟨heq, Or.inr (strLt_eq_of_not_lt hi hi')⟩)
        · exact Or.inr (Or.inr ⟨heq.symm, Or.inl hi'⟩)
      · exact Or.inl (Or.inr ⟨heq, Or.inl hi⟩)
    · exact Or.inr (Or.inl hn')
  · exact Or.inl (Or.inl hn)

theorem keyLe_antisymm_key {a b : RObj} (hab : keyLe a b) (hba : keyLe b a) :
    fallbackName a.name = fallbackName b.name ∧ a.id = b.id := by
  rcases hab with h1 | ⟨h1, h1'⟩
  · rcases hba with h2 | ⟨h2, _⟩
    · rw [strLt_asymm h1] at h2; exact Bool.noConfusion h2
    · rw [h2] at h1; rw [strLt_irrefl] at h1; exact Bool.noConfusion h1
  · rcases hba with h2 | ⟨h2, h2'⟩
    · rw [h1] at h2; rw [strLt_irrefl] at h2; exact Bool.noConfusion h2
    · refine ⟨h1, ?_⟩
      rcases h1' with h3 | h3
      · rcases h2' with h4 | h4
        · rw [strLt_asymm h3] at h4; exact Bool.noConfusion h4
        · exact h4.symm
      · exact h3

/-- Two sorted lists that are permutations of each other and whose members are
pairwise antisymmetric under the sort relation are equal. -/
theorem sorted_perm_eq : ∀ {l₁ l₂ : List RObj}, l₁.Perm l₂ →
    l₁.Sorted keyLe → l₂.Sorted keyLe →
    (∀ a ∈ l₁, ∀ b ∈ l₁, keyLe a b → keyLe b a → a = b) → l₁ = l₂
  | [], l₂, hp, _, _, _ => (hp.nil_eq).symm ▸ rfl
  | a :: t₁, l₂, hp, hs₁, hs₂, ha => by
      cases l₂ with
      | nil => exact absurd hp.symm.nil_eq (by simp)
      | cons b t₂ =>
          by_cases hab : a = b
          · subst hab
            have ht := hp.cons_inv
            have := sorted_perm_eq ht (List.sorted_cons.mp hs₁).2 (List.sorted_cons.mp hs₂).2
              (fun x hx y hy => ha x (List.mem_cons_of_mem _ hx) y (List.mem_cons_of_mem _ hy))
            rw [this]
          · have hamem : a ∈ b :: t₂ := hp.mem_iff.mp (List.mem_cons_self a t₁)
            have hbmem : b ∈ a :: t₁ := hp.symm.mem_iff.mp (List.mem_cons_self b t₂)
            have hat2 : a ∈ t₂ := by
              rcases List.mem_cons.mp hamem with h | h
              · exact absurd h hab
              · exact h
            have hbt1 : b ∈ t₁ := by
              rcases List.mem_cons.mp hbmem with h | h
              · exact absurd h.symm hab
              · exact h
            have h1 : keyLe a b := (List.sorted_cons.mp hs₁).1 b hbt1
            have h2 : keyLe b a := (List.sorted_cons.mp hs₂).1 a hat2
            exact absurd (ha a (List.mem_cons_self a t₁) b hbmem h1 h2) hab

/-! ### Association-list census lemmas -/

theorem lookup_cons_eq {β : Type} (k : String) (b : β) (es : List (String × β)) :
    List.lookup k ((k, b) :: es) = some b := by
  simp [List.lookup_cons]

theorem lookup_cons_ne {β : Type} {a k : String} (b : β) (es : List (String × β))
    (h : a ≠ k) : List.lookup a ((k, b) :: es) = List.lookup a es := by
  have : (a == k) = false := beq_eq_false_iff_ne.mpr h
  simp [List.lookup_cons, this]

theorem lookup_bumpCount : ∀ (d : List (String × Nat)) (nm s : String),
    (bumpCount d nm).lookup s =
      if s = nm then some (countsOf d s + 1) else d.lookup s
  | [], nm, s => by
      by_cases h : s = nm
      · subst h; simp [bumpCount, countsOf, lookup_cons_eq]
      · simp [bumpCount, countsOf, lookup_cons_ne _ _ h, h]
  | (k, c) :: rest, nm, s => by
      simp only [bumpCount]
      by_cases hk : k = nm
      · subst hk
        by_cases hs : s = k
        · subst hs
          simp [lookup_cons_eq, countsOf]
        · simp [lookup_cons_ne _ _ hs, hs]
      · rw [if_neg hk]
        by_cases hs : s = k
        · subst hs
          simp [lookup_cons_eq, hk]
        · rw [lookup_cons_ne _ _ hs, lookup_bumpCount rest nm s]
          by_cases hb : s = nm
          · rw [if_pos hb, if_pos hb]
            have hcc : countsOf ((k, c) :: rest) s = countsOf rest s := by
              unfold countsOf
              rw [lookup_cons_ne _ _ hs]
            rw [hcc]
          · rw [if_neg hb, if_neg hb, lookup_cons_ne _ _ hs]

theorem countsOf_bumpCount (d : List (String × Nat)) (nm s : String) :
    countsOf (bumpCount d nm) s = countsOf d s + if s = nm then 1 else 0 := by
  unfold countsOf
  rw [lookup_bumpCount]
  by_cases h : s = nm
  · simp [h, countsOf]
  · simp [h]

theorem lookup_foldl_bumpCount : ∀ (xs : List String) (d : List (String × Nat)) (s : String),
    (xs.foldl bumpCount d).lookup s =
      if xs.count s = 0 then d.lookup s else some (countsOf d s + xs.count s)
  | [], d, s => by simp
  | x :: xs, d, s => by
      rw [List.foldl_cons, lookup_foldl_bumpCount xs (bumpCount d x) s]
      by_cases hx : s = x
      · subst hx
        rw [List.count_cons_self]
        by_cases h0 : xs.count s = 0
        · rw [if_pos h0, if_neg (Nat.succ_ne_zero _), lookup_bumpCount, if_pos rfl, h0]
        · rw [if_neg h0, if_neg (Nat.succ_ne_zero _), countsOf_bumpCount, if_pos rfl]
          congr 1
          omega
      · rw [List.count_cons_of_ne hx, lookup_bumpCount, countsOf_bumpCount,
          if_neg hx, if_neg hx, Nat.add_zero]

theorem lookup_buildNameCounts (xs : List String) (s : String) :
    (buildNameCounts xs).lookup s =
      if xs.count s = 0 then none else some (xs.count s) := by
  unfold buildNameCounts
  rw [lookup_foldl_bumpCount]
  by_cases h : xs.count s = 0
  · simp [h]
  · simp [h, countsOf]

theorem lookup_eq_none_of_not_mem_keys {β : Type} :
    ∀ {d : List (String × β)} {s : String}, s ∉ d.map Prod.fst → d.lookup s = none
  | [], _, _ => rfl
  | (k, c) :: rest, s, h => by
      have hs : s ≠ k := fun hh => h (by simp [hh])
      rw [lookup_cons_ne _ _ hs]
      exact lookup_eq_none_of_not_mem_keys (fun hh => h (List.mem_cons_of_mem _ hh))

theorem mem_keys_of_lookup_isSome {β : Type} :
    ∀ {d : List (String × β)} {s : String}, (d.lookup s).isSome → s ∈ d.map Prod.fst
  | [], s, h => by simp [List.lookup] at h
  | (k, c) :: rest, s, h => by
      by_cases hs : s = k
      · simp [hs]
      · rw [lookup_cons_ne _ _ hs] at h
        exact List.mem_cons_of_mem _ (mem_keys_of_lookup_isSome h)

theorem lookup_isSome_of_mem_keys {β : Type} :
    ∀ {d : List (String × β)} {s : String}, s ∈ d.map Prod.fst → (d.lookup s).isSome
  | [], s, h => by simp at h
  | (k, c) :: rest, s, h => by
      by_cases hs : s = k
      · subst hs; rw [lookup_cons_eq]; rfl
      · rw [lookup_cons_ne _ _ hs]
        apply lookup_isSome_of_mem_keys
        rw [List.map_cons] at h
        rcases List.mem_cons.mp h with h1 | h1
        · exact absurd h1 hs
        · exact h1

theorem mem_lookup_of_nodup {β : Type} :
    ∀ {d : List (String × β)} {s : String} {c : β},
      (d.map Prod.fst).Nodup → (s, c) ∈ d → d.lookup s = some c
  | (k, b) :: rest, s, c, hnd, hmem => by
      rw [List.map_cons] at hnd
      have hcons := List.nodup_cons.mp hnd
      rcases List.mem_cons.mp hmem with h | h
      · injection h with h1 h2
        subst h1; subst h2
        exact lookup_cons_eq _ _ _
      · have hs : s ≠ k := by
          intro hh
          rw [hh] at h
          exact hcons.1 (List.mem_map.mpr ⟨(k, c), h, rfl⟩)
        rw [lookup_cons_ne _ _ hs]
        exact mem_lookup_of_nodup hcons.2 h

theorem keys_bumpCount : ∀ (d : List (String × Nat)) (nm : String),
    (bumpCount d nm).map Prod.fst =
      if (d.lookup nm).isSome then d.map Prod.fst else d.map Prod.fst ++ [nm]
  | [], nm => by simp [bumpCount, List.lookup]
  | (k, c) :: rest, nm => by
      simp only [bumpCount]
      by_cases hk : k = nm
      · subst hk
        simp [lookup_cons_eq]
      · rw [if_neg hk, lookup_cons_ne _ _ (Ne.symm hk)]
        simp only [List.map_cons, keys_bumpCount rest nm]
        by_cases h2 : (rest.lookup nm).isSome
        · simp [h2]
        · simp [h2]

theorem keys_nodup_bumpCount {d : List (String × Nat)} (nm : String)
    (h : (d.map Prod.fst).Nodup) : ((bumpCount d nm).map Prod.fst).Nodup := by
  rw [keys_bumpCount]
  by_cases h2 : (d.lookup nm).isSome
  · rwa [if_pos h2]
  · rw [if_neg h2]
    have hnm : nm ∉ d.map Prod.fst := fun hc => h2 (lookup_isSome_of_mem_keys hc)
    rw [List.nodup_append]
    refine ⟨h, List.nodup_singleton nm, ?_⟩
    intro a ha hb
    rw [List.mem_singleton] at hb
    rw [hb] at ha
    exact hnm ha

theorem keys_nodup_foldl_bumpCount :
    ∀ (xs : List String) (d : List (String × Nat)), (d.map Prod.fst).Nodup →
      ((xs.foldl bumpCount d).map Prod.fst).Nodup
  | [], d, h => h
  | x :: xs, d, h =>
      keys_nodup_foldl_bumpCount xs (bumpCount d x) (keys_nodup_bumpCount x h)

theorem keys_nodup_buildNameCounts (xs : List String) :
    ((buildNameCounts xs).map Prod.fst).Nodup :=
  keys_nodup_foldl_bumpCount xs [] List.nodup_nil

theorem mem_keys_buildNameCounts_iff {xs : List String} {s : String} :
    s ∈ (buildNameCounts xs).map Prod.fst ↔ s ∈ xs := by
  constructor
  · intro h
    have := lookup_isSome_of_mem_keys h
    rw [lookup_buildNameCounts] at this
    by_cases h0 : xs.count s = 0
    · rw [if_pos h0] at this; exact absurd this (by simp)
    · have : 0 < xs.count s := Nat.pos_of_ne_zero h0
      exact List.count_pos_iff.mp this
  · intro h
    apply mem_keys_of_lookup_isSome
    rw [lookup_buildNameCounts]
    have : xs.count s ≠ 0 := by
      have := List.count_pos_iff.mpr h
      omega
    rw [if_neg this]
    rfl

theorem lookup_filter_none {β : Type} {p : String × β → Bool} :
    ∀ {d : List (String × β)} {s : String}, d.lookup s = none → (d.filter p).lookup s = none
  | [], _, _ => rfl
  | (k, c) :: rest, s, h => by
      have hs : s ≠ k := by
        intro hh
        subst hh
        rw [lookup_cons_eq] at h
        exact Option.noConfusion h
      rw [lookup_cons_ne _ _ hs] at h
      rw [List.filter_cons]
      by_cases hp : p (k, c)
      · rw [if_pos (by simpa using hp), lookup_cons_ne _ _ hs]
        exact lookup_filter_none h
      · rw [if_neg (by simpa using hp)]
        exact lookup_filter_none h

theorem lookup_filter_some {β : Type} {p : String × β → Bool} :
    ∀ {d : List (String × β)} {s : String} {c : β}, (d.map Prod.fst).Nodup →
      d.lookup s = some c →
      (d.filter p).lookup s = if p (s, c) then some c else none
  | [], s, c, _, h => by simp [List.lookup] at h
  | (k, b) :: rest, s, c, hnd, h => by
      rw [List.map_cons] at hnd
      have hcons := List.nodup_cons.mp hnd
      by_cases hs : s = k
      · subst hs
        rw [lookup_cons_eq] at h
        injection h with hbc
        subst hbc
        rw [List.filter_cons]
        by_cases hp : p (s, b)
        · rw [if_pos (by simpa using hp), lookup_cons_eq, if_pos hp]
        · rw [if_neg (by simpa using hp), if_neg hp]
          apply lookup_filter_none
          exact lookup_eq_none_of_not_mem_keys hcons.1
      · rw [lookup_cons_ne _ _ hs] at h
        rw [List.filter_cons]
        by_cases hp : p (k, b)
        · rw [if_pos (by simpa using hp), lookup_cons_ne _ _ hs]
          exact lookup_filter_some hcons.2 h
        · rw [if_neg (by simpa using hp)]
          exact lookup_filter_some hcons.2 h

theorem lookup_dup_names (xs : List String) (s : String) :
    ((buildNameCounts xs).filter (fun p => p.2 > 1)).lookup s =
      if 1 < xs.count s then some (xs.count s) else none := by
  by_cases h0 : xs.count s = 0
  · rw [lookup_filter_none (by rw [lookup_buildNameCounts, if_pos h0])]
    rw [if_neg (by omega)]
  · rw [lookup_filter_some (keys_nodup_buildNameCounts xs)
      (by rw [lookup_buildNameCounts, if_neg h0])]
    by_cases h1 : 1 < xs.count s
    · rw [if_pos (by simpa using h1), if_pos h1]
    · rw [if_neg (by simpa using h1), if_neg h1]

theorem isDupB_dup_names (xs : List String) (o : RObj) :
    isDupB ((buildNameCounts xs).filter (fun p => p.2 > 1)) o =
      decide (1 < xs.count (fallbackName o.name)) := by
  unfold isDupB
  rw [lookup_dup_names]
  by_cases h : 1 < xs.count (fallbackName o.name)
  · rw [if_pos h]; simp [h]
  · rw [if_neg h]; simp [h]

theorem dupFilter_eq_nil_of_nodup {xs : List String} (h : xs.Nodup) :
    (buildNameCounts xs).filter (fun p => p.2 > 1) = [] := by
  rw [List.filter_eq_nil_iff]
  intro p hp
  have hl := mem_lookup_of_nodup (keys_nodup_buildNameCounts xs)
    (show (p.1, p.2) ∈ buildNameCounts xs by simpa using hp)
  rw [lookup_buildNameCounts] at hl
  by_cases h0 : xs.count p.1 = 0
  · rw [if_pos h0] at hl; exact absurd hl (by simp)
  · rw [if_neg h0] at hl
    injection hl with hl
    have hle := List.nodup_iff_count_le_one.mp h p.1
    simp only [decide_eq_true_eq]
    omega

/-! ### Finset helper lemmas -/

theorem subset_addWorkingNames :
    ∀ (counts : List (String × Nat)) (u : Finset String), u ⊆ addWorkingNames u counts
  | [], u => Finset.Subset.refl u
  | p :: counts, u => by
      unfold addWorkingNames
      rw [List.foldl_cons]
      refine Finset.Subset.trans ?_ (subset_addWorkingNames counts _)
      by_cases hp : p.1 ≠ ""
      · rw [if_pos hp]
        exact Finset.subset_insert _ u
      · rw [if_neg hp]

theorem mem_addWorkingNames_of_key :
    ∀ (counts : List (String × Nat)) (u : Finset String) (s : String),
      s ∈ counts.map Prod.fst → s ≠ "" → s ∈ addWorkingNames u counts
  | [], _, s, h, _ => by simp at h
  | p :: counts, u, s, h, hne => by
      unfold addWorkingNames
      rw [List.foldl_cons]
      rw [List.map_cons] at h
      rcases List.mem_cons.mp h with h1 | h1
      · refine subset_addWorkingNames counts _ ?_
        rw [h1, if_pos (h1 ▸ hne)]
        exact Finset.mem_insert_self _ _
      · exact mem_addWorkingNames_of_key counts _ s h1 hne

theorem mem_build_used {doc : List RObj} {o : RObj} (ho : o ∈ doc) (hn : o.name ≠ "") :
    o.name ∈ _build_used_name_set doc := by
  unfold _build_used_name_set
  rw [List.mem_toFinset]
  exact List.mem_map.mpr ⟨o, List.mem_filter.mpr ⟨ho, by simpa using hn⟩, rfl⟩

/-! ### Mutation lemmas -/

theorem setObjName_id (p : String × String) (o : RObj) : (setObjName p o).id = o.id := by
  unfold setObjName
  split <;> rfl

theorem setObjName_hidden (p : String × String) (o : RObj) :
    (setObjName p o).hidden = o.hidden := by
  unfold setObjName
  split <;> rfl

theorem setObjName_locked (p : String × String) (o : RObj) :
    (setObjName p o).locked = o.locked := by
  unfold setObjName
  split <;> rfl

theorem setObjName_selected (p : String × String) (o : RObj) :
    (setObjName p o).selected = o.selected := by
  unfold setObjName
  split <;> rfl

theorem assignAll_cons (p : String × String) (ups : List (String × String)) (o : RObj) :
    assignAll (p :: ups) o = assignAll ups (setObjName p o) := rfl

theorem assignAll_id : ∀ (ups : List (String × String)) (o : RObj),
    (assignAll ups o).id = o.id
  | [], _ => rfl
  | p :: ups, o => by rw [assignAll_cons, assignAll_id ups, setObjName_id]

theorem assignAll_hidden : ∀ (ups : List (String × String)) (o : RObj),
    (assignAll ups o).hidden = o.hidden
  | [], _ => rfl
  | p :: ups, o => by rw [assignAll_cons, assignAll_hidden ups, setObjName_hidden]

theorem assignAll_locked : ∀ (ups : List (String × String)) (o : RObj),
    (assignAll ups o).locked = o.locked
  | [], _ => rfl
  | p :: ups, o => by rw [assignAll_cons, assignAll_locked ups, setObjName_locked]

theorem assignAll_selected : ∀ (ups : List (String × String)) (o : RObj),
    (assignAll ups o).selected = o.selected
  | [], _ => rfl
  | p :: ups, o => by rw [assignAll_cons, assignAll_selected ups, setObjName_selected]

theorem applyUpdates_eq_map : ∀ (ups : List (String × String)) (doc : List RObj),
    applyUpdates doc ups = doc.map (assignAll ups)
  | [], doc => by
      show doc = doc.map (assignAll [])
      have h : doc.map (assignAll []) = doc.map id := List.map_congr_left (fun a _ => rfl)
      rw [h, List.map_id]
  | p :: ups, doc => by
      show applyUpdates (doc.map (setObjName p)) ups = _
      rw [applyUpdates_eq_map ups, List.map_map]
      rfl

theorem assignAll_of_not_mem : ∀ (ups : List (String × String)) (o : RObj),
    o.id ∉ ups.map Prod.fst → assignAll ups o = o
  | [], _, _ => rfl
  | p :: ups, o, h => by
      have h1 : o.id ≠ p.1 := fun hh => h (by simp [hh])
      have h2 : setObjName p o = o := by
        unfold setObjName
        rw [if_neg h1]
      rw [assignAll_cons, h2]
      exact assignAll_of_not_mem ups o (fun hh => h (List.mem_cons_of_mem _ hh))

theorem assignAll_name_of_mem : ∀ {ups : List (String × String)} {i nm : String} (o : RObj),
    (ups.map Prod.fst).Nodup → (i, nm) ∈ ups → o.id = i → (assignAll ups o).name = nm
  | p :: ups, i, nm, o, hnd, hmem, hid => by
      rw [List.map_cons] at hnd
      have hcons := List.nodup_cons.mp hnd
      rcases List.mem_cons.mp hmem with h | h
      · subst h
        have h2 : setObjName (i, nm) o = { o with name := nm } := by
          unfold setObjName
          rw [if_pos hid]
        rw [assignAll_cons, h2]
        have hrest : ({ o with name := nm } : RObj).id ∉ ups.map Prod.fst := by
          show o.id ∉ ups.map Prod.fst
          rw [hid]
          exact hcons.1
        rw [assignAll_of_not_mem _ _ hrest]
      · have hp1 : p.1 ≠ i := by
          intro hh
          exact hcons.1 (hh ▸ List.mem_map.mpr ⟨(i, nm), h, rfl⟩)
        have h2 : setObjName p o = o := by
          unfold setObjName
          rw [if_neg (by rw [hid]; exact fun hh => hp1 hh.symm)]
        rw [assignAll_cons, h2]
        exact assignAll_name_of_mem o hcons.2 h hid

/-! ### Candidate-search lemmas -/

theorem fallbackName_of_ne {nm : String} (h : nm ≠ "") : fallbackName nm = nm := by
  unfold fallbackName
  rw [if_neg h]

theorem _next_unique_search_spec : ∀ {fuel : Nat} {base : String} {fmt : Nat → String}
    {used : Finset String} {n : Nat} {c : String} {m : Nat},
    _next_unique_search base fmt used n fuel = some (c, m) →
    n ≤ m ∧ c = base ++ fmt m ∧ c ∉ used ∧ (∀ k, n ≤ k → k < m → base ++ fmt k ∈ used)
  | 0, _, _, _, _, _, _, h => by simp [_next_unique_search] at h
  | fuel + 1, base, fmt, used, n, c, m, h => by
      simp only [_next_unique_search] at h
      by_cases hc : base ++ fmt n ∈ used
      · rw [if_pos hc] at h
        obtain ⟨h1, h2, h3, h4⟩ := _next_unique_search_spec h
        refine ⟨by omega, h2, h3, ?_⟩
        intro k hk1 hk2
        by_cases hkn : k = n
        · rwa [hkn]
        · exact h4 k (by omega) hk2
      · rw [if_neg hc] at h
        have h' := Option.some.inj h
        have he : base ++ fmt n = c := congrArg Prod.fst h'
        have hm : n = m := congrArg Prod.snd h'
        subst he
        subst hm
        exact ⟨Nat.le_refl n, rfl, hc, fun k hk1 hk2 => absurd hk1 (by omega)⟩

theorem _next_unique_search_succeeds : ∀ (fuel : Nat) {base : String} {fmt : Nat → String}
    {used : Finset String} {n : Nat},
    (∃ m, n ≤ m ∧ m < n + fuel ∧ base ++ fmt m ∉ used) →
    ∃ r, _next_unique_search base fmt used n fuel = some r
  | 0, _, _, _, n, ⟨m, h1, h2, _⟩ => absurd h2 (by omega)
  | fuel + 1, base, fmt, used, n, ⟨m, h1, h2, h3⟩ => by
      simp only [_next_unique_search]
      by_cases hc : base ++ fmt n ∈ used
      · rw [if_pos hc]
        apply _next_unique_search_succeeds fuel
        have hmn : m ≠ n := fun hh => h3 (hh ▸ hc)
        exact ⟨m, by omega, by omega, h3⟩
      · rw [if_neg hc]
        exact ⟨_, rfl⟩

theorem exists_free_candidate (base : String) (fmt : Nat → String)
    (hinj : Function.Injective fmt) (used : Finset String) (n : Nat) :
    ∃ m, n ≤ m ∧ m < n + (used.card + 1) ∧ base ++ fmt m ∉ used := by
  by_contra hcon
  push_neg at hcon
  have hmap : ∀ k ∈ Finset.range (used.card + 1), base ++ fmt (n + k) ∈ used := by
    intro k hk
    rw [Finset.mem_range] at hk
    exact hcon (n + k) (by omega) (by omega)
  have hinj2 : Set.InjOn (fun k => base ++ fmt (n + k)) (Finset.range (used.card + 1)) := by
    intro a _ b _ hab
    have := hinj (string_append_left_cancel hab)
    omega
  have hcard := Finset.card_le_card_of_injOn _ hmap hinj2
  rw [Finset.card_range] at hcard
  omega

theorem _next_unique_with_cache_spec {base0 : String} {fmt : Nat → String} {st : UniqState}
    {fuel : Nat} {c : String} {st' : UniqState}
    (h : _next_unique_with_cache base0 fmt st fuel = some (c, st')) :
    ∃ n, st.next_suffix (fallbackName base0) ≤ n ∧
      c = fallbackName base0 ++ fmt n ∧ c ∉ st.used ∧
      (∀ k, st.next_suffix (fallbackName base0) ≤ k → k < n →
        fallbackName base0 ++ fmt k ∈ st.used) ∧
      st'.used = insert c st.used ∧
      st'.next_suffix = Function.update st.next_suffix (fallbackName base0) (n + 1) := by
  simp only [_next_unique_with_cache] at h
  cases hs : _next_unique_search (fallbackName base0) fmt st.used
      (st.next_suffix (fallbackName base0)) fuel with
  | none => rw [hs] at h; exact absurd h (by simp)
  | some r =>
      obtain ⟨cand, n⟩ := r
      rw [hs] at h
      have h' := Option.some.inj h
      have hc : cand = c := congrArg Prod.fst h'
      have hst : (⟨insert cand st.used,
          Function.update st.next_suffix (fallbackName base0) (n + 1)⟩ : UniqState) = st' :=
        congrArg Prod.snd h'
      subst hc
      obtain ⟨h1, h2, h3, h4⟩ := _next_unique_search_spec hs
      exact ⟨n, h1, h2, h3, h4, by rw [← hst], by rw [← hst]⟩

theorem determineNewName_spec {fmt : Nat → String} {fuel : Nat} {uniq : UniqState}
    {assigned : Finset String} {base nn : String} {u : UniqState} {a : Finset String}
    (hb : base ∈ uniq.used) (hbase : base ≠ "")
    (h : determineNewName fmt fuel uniq assigned base = some (nn, u, a)) :
    nn ∉ uniq.used ∧ nn ≠ "" ∧ u.used = insert nn uniq.used ∧ nn ≠ base := by
  unfold determineNewName at h
  have hfb : fallbackName base = base := fallbackName_of_ne hbase
  have main : ∀ (u' : UniqState),
      _next_unique_with_cache base fmt uniq fuel = some (nn, u') → u'.used = u.used →
      nn ∉ uniq.used ∧ nn ≠ "" ∧ u.used = insert nn uniq.used ∧ nn ≠ base := by
    intro u' hcc huu
    obtain ⟨n, _, he, hnotin, _, hu, _⟩ := _next_unique_with_cache_spec hcc
    rw [hfb] at he
    refine ⟨hnotin, ?_, by rw [← huu, hu], ?_⟩
    · rw [he]
      exact append_ne_empty_of_left hbase
    · intro hh
      rw [hh] at hnotin
      exact hnotin hb
  by_cases ha : base ∉ assigned
  · rw [if_pos ha, if_neg (by simpa using hb)] at h
    cases hcc : _next_unique_with_cache base fmt uniq fuel with
    | none => rw [hcc] at h; exact absurd h (by simp)
    | some r =>
        obtain ⟨nn', u'⟩ := r
        rw [hcc] at h
        have h' := Option.some.inj h
        have h1 : nn' = nn := congrArg Prod.fst h'
        have h2 : u' = u := congrArg (fun x => x.2.1) h'
        subst h1
        exact main u' hcc (by rw [h2])
  · rw [if_neg ha] at h
    cases hcc : _next_unique_with_cache base fmt uniq fuel with
    | none => rw [hcc] at h; exact absurd h (by simp)
    | some r =>
        obtain ⟨nn', u'⟩ := r
        rw [hcc] at h
        have h' := Option.some.inj h
        have h1 : nn' = nn := congrArg Prod.fst h'
        have h2 : u' = u := congrArg (fun x => x.2.1) h'
        subst h1
        exact main u' hcc (by rw [h2])

/-! ### Renaming-loop characterizations -/

theorem renameStep_apply_spec {dup_names : List (String × Nat)} {fmt : Nat → String}
    {fuel : Nat} {st : LoopSt} {o : RObj} {st' : LoopSt}
    (hb : fallbackName o.name ∈ st.uniq.used)
    (h : renameStep dup_names fmt false fuel st o = some st') :
    (isDupB dup_names o = false ∧ st' = st) ∨
    (isDupB dup_names o = true ∧ ∃ c, c ∉ st.uniq.used ∧ c ≠ "" ∧
      st'.uniq.used = insert c st.uniq.used ∧
      st'.updates = st.updates ++ [(o.id, c)] ∧
      st'.renamed = st.renamed + 1 ∧ st'.would_rename = st.would_rename) := by
  unfold renameStep at h
  by_cases hd : (dup_names.lookup (fallbackName o.name)).isSome = false
  · rw [if_pos hd] at h
    exact Or.inl ⟨hd, (Option.some.inj h).symm⟩
  · rw [if_neg hd] at h
    right
    have hdt : isDupB dup_names o = true := by
      unfold isDupB
      cases hx : (dup_names.lookup (fallbackName o.name)).isSome
      · exact absurd hx hd
      · rfl
    refine ⟨hdt, ?_⟩
    split at h
    · exact absurd h (by simp)
    · rename_i nn u a hdet
      obtain ⟨hnotin, hne, hu, hnb⟩ :=
        determineNewName_spec hb (fallbackName_ne_empty _) hdet
      rw [if_pos (show fallbackName o.name ≠ nn from fun hh => hnb hh.symm)] at h
      simp only [Bool.false_eq_true, if_false] at h
      have h' := Option.some.inj h
      refine ⟨nn, hnotin, hne, ?_, ?_, ?_, ?_⟩ <;> rw [← h']
      exact hu

theorem renameLoop_apply_spec : ∀ {os : List RObj} {st st' : LoopSt}
    {dup_names : List (String × Nat)} {fmt : Nat → String} {fuel : Nat},
    renameLoop dup_names fmt false fuel os st = some st' →
    (∀ o ∈ os, fallbackName o.name ∈ st.uniq.used) →
    st.uniq.used ⊆ st'.uniq.used ∧
    ∃ Δ, st'.updates = st.updates ++ Δ ∧
      Δ.map Prod.fst = (os.filter (fun o => isDupB dup_names o)).map (fun o => o.id) ∧
      (∀ p ∈ Δ, p.2 ∈ st'.uniq.used ∧ p.2 ∉ st.uniq.used ∧ p.2 ≠ "") ∧
      (Δ.map Prod.snd).Nodup ∧
      st'.renamed = st.renamed + Δ.length
  | [], st, st', _, _, _, h, _ => by
      have h' := Option.some.inj h
      subst h'
      exact ⟨Finset.Subset.refl _, [], by simp, by simp, by simp, by simp, by simp⟩
  | o :: os, st, st', dup_names, fmt, fuel, h, hku => by
      simp only [renameLoop] at h
      cases hstep : renameStep dup_names fmt false fuel st o with
      | none => rw [hstep] at h; exact absurd h (by simp)
      | some st₁ =>
          rw [hstep] at h
          rcases renameStep_apply_spec (hku o (List.mem_cons_self o os)) hstep with
            ⟨hd, hst⟩ | ⟨hd, c, hc1, hc2, hc3, hc4, hc5, hc6⟩
          · rw [hst] at h
            obtain ⟨hsub, Δ, h1, h2, h3, h4, h5⟩ := renameLoop_apply_spec h
              (fun o' ho' => hku o' (List.mem_cons_of_mem _ ho'))
            refine ⟨hsub, Δ, h1, ?_, h3, h4, h5⟩
            rw [List.filter_cons, if_neg (by simp [hd])]
            exact h2
          · have hku₁ : ∀ o' ∈ os, fallbackName o'.name ∈ st₁.uniq.used := by
              intro o' ho'
              rw [hc3]
              exact Finset.mem_insert_of_mem (hku o' (List.mem_cons_of_mem _ ho'))
            obtain ⟨hsub, Δ', h1, h2, h3, h4, h5⟩ := renameLoop_apply_spec h hku₁
            have hsub0 : st.uniq.used ⊆ st'.uniq.used := by
              refine Finset.Subset.trans ?_ hsub
              rw [hc3]
              exact Finset.subset_insert _ _
            have hcin1 : c ∈ st₁.uniq.used := by
              rw [hc3]
              exact Finset.mem_insert_self _ _
            refine ⟨hsub0, (o.id, c) :: Δ', ?_, ?_, ?_, ?_, ?_⟩
            · rw [h1, hc4, List.append_assoc]
              rfl
            · rw [List.filter_cons, if_pos (by simp [hd])]
              simp only [List.map_cons]
              rw [h2]
            · intro p hp
              rcases List.mem_cons.mp hp with hp1 | hp1
              · subst hp1
                exact ⟨hsub hcin1, hc1, hc2⟩
              · obtain ⟨ha, hb', hcne⟩ := h3 p hp1
                refine ⟨ha, ?_, hcne⟩
                intro hmem0
                exact hb' (by rw [hc3]; exact Finset.mem_insert_of_mem hmem0)
            · simp only [List.map_cons]
              rw [List.nodup_cons]
              refine ⟨?_, h4⟩
              intro hcmem
              obtain ⟨p, hp, hpc⟩ := List.mem_map.mp hcmem
              obtain ⟨_, hb', _⟩ := h3 p hp
              rw [hpc] at hb'
              exact hb' hcin1
            · rw [h5, hc5, List.length_cons]
              omega

theorem renameStep_dry_of_apply {dup_names : List (String × Nat)} {fmt : Nat → String}
    {fuel : Nat} {st st' : LoopSt} {o : RObj}
    (h : renameStep dup_names fmt false fuel st o = some st')
    (std : LoopSt) (hu : std.uniq = st.uniq)
    (ha : std.assigned_base_once = st.assigned_base_once) :
    renameStep dup_names fmt true fuel std o =
      some ⟨st'.uniq, st'.assigned_base_once, std.renamed,
            std.would_rename + (st'.renamed - st.renamed), std.updates⟩ ∧
    st.renamed ≤ st'.renamed := by
  unfold renameStep at h ⊢
  rw [hu, ha]
  by_cases hd : (dup_names.lookup (fallbackName o.name)).isSome = false
  · rw [if_pos hd] at h ⊢
    have h' := Option.some.inj h
    subst h'
    refine ⟨?_, Nat.le_refl _⟩
    rw [Nat.sub_self, Nat.add_zero, ← hu, ← ha]
  · rw [if_neg hd] at h ⊢
    split at h
    · exact absurd h (by simp)
    · rename_i nn u a hdet
      dsimp only
      by_cases hnn : fallbackName o.name ≠ nn
      · rw [if_pos hnn] at h ⊢
        simp only [Bool.false_eq_true, if_false] at h
        rw [if_pos rfl]
        have h' := Option.some.inj h
        refine ⟨?_, ?_⟩
        · rw [← h']
          have harith : std.would_rename + (st.renamed + 1 - st.renamed) = std.would_rename + 1 := by
            omega
          rw [harith]
        · rw [← h']
          exact Nat.le_succ _
      · rw [if_neg hnn] at h ⊢
        have h' := Option.some.inj h
        refine ⟨?_, ?_⟩
        · rw [← h', Nat.sub_self, Nat.add_zero]
        · rw [← h']

theorem renameLoop_dry_of_apply : ∀ {os : List RObj} {st st' : LoopSt}
    {dup_names : List (String × Nat)} {fmt : Nat → String} {fuel : Nat},
    renameLoop dup_names fmt false fuel os st = some st' →
    ∀ (std : LoopSt), std.uniq = st.uniq → std.assigned_base_once = st.assigned_base_once →
    renameLoop dup_names fmt true fuel os std =
      some ⟨st'.uniq, st'.assigned_base_once, std.renamed,
            std.would_rename + (st'.renamed - st.renamed), std.updates⟩ ∧
    st.renamed ≤ st'.renamed
  | [], st, st', _, _, _, h, std, hu, ha => by
      have h' := Option.some.inj h
      subst h'
      refine ⟨?_, Nat.le_refl _⟩
      simp only [renameLoop]
      rw [Nat.sub_self, Nat.add_zero, ← hu, ← ha]
  | o :: os, st, st', dup_names, fmt, fuel, h, std, hu, ha => by
      simp only [renameLoop] at h ⊢
      cases hstep : renameStep dup_names fmt false fuel st o with
      | none => rw [hstep] at h; exact absurd h (by simp)
      | some st₁ =>
          rw [hstep] at h
          have h2 : renameLoop dup_names fmt false fuel os st₁ = some st' := h
          obtain ⟨hdry, hle⟩ := renameStep_dry_of_apply hstep std hu ha
          obtain ⟨hdry2, hle2⟩ := renameLoop_dry_of_apply h2
            ⟨st₁.uniq, st₁.assigned_base_once, std.renamed,
             std.would_rename + (st₁.renamed - st.renamed), std.updates⟩ rfl rfl
          refine ⟨?_, by omega⟩
          rw [hdry]
          have harith : std.would_rename + (st₁.renamed - st.renamed) +
              (st'.renamed - st₁.renamed) = std.would_rename + (st'.renamed - st.renamed) := by
            omega
          have hST : (⟨st'.uniq, st'.assigned_base_once, std.renamed,
              std.would_rename + (st₁.renamed - st.renamed) + (st'.renamed - st₁.renamed),
              std.updates⟩ : LoopSt) =
              ⟨st'.uniq, st'.assigned_base_once, std.renamed,
               std.would_rename + (st'.renamed - st.renamed), std.updates⟩ := by
            rw [harith]
          exact hdry2.trans (congrArg some hST)

theorem renameStep_congr {d₁ d₂ : List (String × Nat)}
    (hlk : ∀ s, d₁.lookup s = d₂.lookup s) (fmt : Nat → String) (dry : Bool) (fuel : Nat)
    (st : LoopSt) (o : RObj) :
    renameStep d₁ fmt dry fuel st o = renameStep d₂ fmt dry fuel st o := by
  unfold renameStep
  dsimp only
  rw [hlk]

theorem renameLoop_congr {d₁ d₂ : List (String × Nat)}
    (hlk : ∀ s, d₁.lookup s = d₂.lookup s) (fmt : Nat → String) (dry : Bool) (fuel : Nat) :
    ∀ (os : List RObj) (st : LoopSt),
      renameLoop d₁ fmt dry fuel os st = renameLoop d₂ fmt dry fuel os st
  | [], _ => rfl
  | o :: os, st => by
      simp only [renameLoop]
      rw [renameStep_congr hlk]
      cases renameStep d₂ fmt dry fuel st o with
      | none => rfl
      | some st₁ => exact renameLoop_congr hlk fmt dry fuel os st₁


/-! ### Working-set lemmas -/

theorem applyNameFilters_nil (iu ih : Bool) : applyNameFilters [] iu ih = [] := by
  cases iu <;> cases ih <;> rfl

theorem applyNameFilters_sublist (ids : List RObj) (iu ih : Bool) :
    (applyNameFilters ids iu ih).Sublist ids := by
  unfold applyNameFilters
  cases iu <;> cases ih <;> simp only [Bool.false_eq_true, if_false, if_true]
  · exact (List.filter_sublist _).trans (List.filter_sublist _)
  · exact List.filter_sublist _
  · exact List.filter_sublist _
  · exact List.Sublist.refl _

theorem workingSet_sublist (doc : List RObj) (so iu ih : Bool) :
    (workingSet doc so iu ih).Sublist doc := by
  unfold workingSet
  refine (applyNameFilters_sublist _ _ _).trans ?_
  cases so
  · simp only [Bool.false_eq_true, if_false]
    exact List.Sublist.refl _
  · simp only [if_true]
    exact List.filter_sublist _

theorem mem_applyNameFilters {ids : List RObj} {iu ih : Bool} {o : RObj} :
    o ∈ applyNameFilters ids iu ih ↔
      o ∈ ids ∧ (iu = false → strippedTruthy o.name = true) ∧
        (ih = false → (!o.hidden && !o.locked) = true) := by
  unfold applyNameFilters
  cases iu <;> cases ih <;> simp [List.mem_filter] <;> tauto

theorem census_mem_usedInit {doc : List RObj} {so iu ih : Bool} {o : RObj}
    (ho : o ∈ workingSet doc so iu ih) :
    fallbackName o.name ∈ usedInit doc so iu ih := by
  unfold usedInit
  apply mem_addWorkingNames_of_key
  · rw [mem_keys_buildNameCounts_iff]
    exact List.mem_map.mpr ⟨o, ho, rfl⟩
  · exact fallbackName_ne_empty _

theorem docname_mem_usedInit {doc : List RObj} (so iu ih : Bool) {o : RObj}
    (ho : o ∈ doc) (hn : o.name ≠ "") :
    o.name ∈ usedInit doc so iu ih :=
  subset_addWorkingNames _ _ (mem_build_used ho hn)

theorem isDupB_nil (o : RObj) : isDupB [] o = false := rfl

/-! ### Top-level run characterization (apply mode) -/

theorem rename_apply_run {doc : List RObj} {so iu ih : Bool} {fmt : Nat → String}
    {fuel : Nat} {out : RenameOutcome}
    (h : rename_objects_unique doc so iu ih false fmt fuel = some out) :
    out.doc = applyUpdates doc out.updates ∧
    out.updates.map Prod.fst =
      ((List.insertionSort keyLe (workingSet doc so iu ih)).filter
        (fun o => isDupB (dupNamesOf doc so iu ih) o)).map (fun o => o.id) ∧
    (∀ p ∈ out.updates, p.2 ∉ usedInit doc so iu ih ∧ p.2 ≠ "") ∧
    (out.updates.map Prod.snd).Nodup ∧
    out.returned = out.updates.length := by
  simp only [rename_objects_unique] at h
  set ids0 := if so = true then doc.filter (fun o => o.selected) else doc with hids0
  split at h
  · -- empty scope
    rename_i hc
    have h' := (Option.some.inj h).symm
    subst h'
    rw [List.isEmpty_iff] at hc
    have hws : workingSet doc so iu ih = [] := by
      unfold workingSet
      rw [← hids0, hc, applyNameFilters_nil]
    refine ⟨rfl, ?_, by simp, by simp, rfl⟩
    rw [hws]
    rfl
  · split at h
    · -- empty after filters
      rename_i hc
      have h' := (Option.some.inj h).symm
      subst h'
      have hws : workingSet doc so iu ih = [] := by
        rw [List.isEmpty_iff] at hc
        unfold workingSet
        rw [← hids0]
        exact hc
      refine ⟨rfl, ?_, by simp, by simp, rfl⟩
      rw [hws]
      rfl
    · split at h
      · -- no duplicates
        rename_i hc
        have h' := (Option.some.inj h).symm
        subst h'
        have hdup : dupNamesOf doc so iu ih = [] := by
          rw [List.isEmpty_iff] at hc
          unfold dupNamesOf censusNames workingSet
          rw [← hids0]
          exact hc
        refine ⟨rfl, ?_, by simp, by simp, rfl⟩
        rw [hdup]
        have hfil : (List.insertionSort keyLe (workingSet doc so iu ih)).filter
            (fun o => isDupB ([] : List (String × Nat)) o) = [] :=
          List.filter_eq_nil_iff.mpr (fun a _ => by simp [isDupB_nil])
        rw [hfil]
        rfl
      · -- main branch
        split at h
        · exact absurd h (by simp)
        · rename_i st hloop
          simp only [Bool.false_eq_true, if_false] at h
          have h' := (Option.some.inj h).symm
          subst h'
          obtain ⟨hsub, Δ, h1, h2, h3, h4, h5⟩ := renameLoop_apply_spec hloop
            (fun o ho => census_mem_usedInit
              (show o ∈ workingSet doc so iu ih from
                (List.perm_insertionSort keyLe _).subset ho))
          rw [List.nil_append] at h1
          refine ⟨rfl, ?_, ?_, ?_, ?_⟩
          · show st.updates.map Prod.fst = _
            rw [h1]
            exact h2
          · show ∀ p ∈ st.updates, p.2 ∉ usedInit doc so iu ih ∧ p.2 ≠ ""
            intro p hp
            rw [h1] at hp
            obtain ⟨_, hnotin, hne⟩ := h3 p hp
            exact ⟨hnotin, hne⟩
          · show (st.updates.map Prod.snd).Nodup
            rw [h1]
            exact h4
          · show st.renamed = st.updates.length
            rw [h1, h5]
            simp


/-! ### Derived facts about an apply-mode run -/

theorem ws_ids_nodup {doc : List RObj} (so iu ih : Bool)
    (hids : (doc.map (fun o => o.id)).Nodup) :
    ((workingSet doc so iu ih).map (fun o => o.id)).Nodup :=
  ((workingSet_sublist doc so iu ih).map _).nodup hids

theorem sorted_ws_ids_nodup {doc : List RObj} (so iu ih : Bool)
    (hids : (doc.map (fun o => o.id)).Nodup) :
    ((List.insertionSort keyLe (workingSet doc so iu ih)).map (fun o => o.id)).Nodup := by
  have hperm := (List.perm_insertionSort keyLe (workingSet doc so iu ih)).map
    (fun o => o.id)
  exact hperm.nodup_iff.mpr (ws_ids_nodup so iu ih hids)

theorem rename_updates_fst_nodup {doc : List RObj} {so iu ih : Bool} {fmt : Nat → String}
    {fuel : Nat} {out : RenameOutcome}
    (h : rename_objects_unique doc so iu ih false fmt fuel = some out)
    (hids : (doc.map (fun o => o.id)).Nodup) :
    (out.updates.map Prod.fst).Nodup := by
  obtain ⟨_, h2, _, _, _⟩ := rename_apply_run h
  rw [h2]
  exact ((List.filter_sublist _).map _).nodup (sorted_ws_ids_nodup so iu ih hids)

theorem mem_workingSet {doc : List RObj} {so iu ih : Bool} {o : RObj} :
    o ∈ workingSet doc so iu ih ↔
      o ∈ doc ∧ (so = true → o.selected = true) ∧
        (iu = false → strippedTruthy o.name = true) ∧
        (ih = false → (!o.hidden && !o.locked) = true) := by
  unfold workingSet
  rw [mem_applyNameFilters]
  cases so <;> simp [List.mem_filter] <;> tauto

/-- Membership of an id among the recorded updates is equivalent to being a
duplicate-group member of the working set. -/
theorem rename_update_id_iff {doc : List RObj} {so iu ih : Bool} {fmt : Nat → String}
    {fuel : Nat} {out : RenameOutcome}
    (h : rename_objects_unique doc so iu ih false fmt fuel = some out)
    (hids : (doc.map (fun o => o.id)).Nodup) {o : RObj}
    (ho : o ∈ workingSet doc so iu ih) :
    o.id ∈ out.updates.map Prod.fst ↔ isDupB (dupNamesOf doc so iu ih) o = true := by
  obtain ⟨_, h2, _, _, _⟩ := rename_apply_run h
  rw [h2]
  constructor
  · intro hmem
    obtain ⟨w, hw, hwid⟩ := List.mem_map.mp hmem
    have hwfil := hw
    rw [List.mem_filter] at hwfil
    have hwws : w ∈ workingSet doc so iu ih :=
      (List.perm_insertionSort keyLe _).subset hwfil.1
    have hweq : w = o := List.inj_on_of_nodup_map (ws_ids_nodup so iu ih hids) hwws ho hwid
    rw [← hweq]
    exact hwfil.2
  · intro hdup
    apply List.mem_map.mpr
    refine ⟨o, ?_, rfl⟩
    rw [List.mem_filter]
    exact ⟨(List.perm_insertionSort keyLe _).mem_iff.mpr ho, hdup⟩

theorem rename_final_names {doc : List RObj} {so iu ih : Bool} {fmt : Nat → String}
    {fuel : Nat} {out : RenameOutcome}
    (h : rename_objects_unique doc so iu ih false fmt fuel = some out)
    (hids : (doc.map (fun o => o.id)).Nodup) :
    out.doc = doc.map (assignAll out.updates) ∧
    ∀ o ∈ workingSet doc so iu ih,
      (isDupB (dupNamesOf doc so iu ih) o = true →
        ∃ nm, (o.id, nm) ∈ out.updates ∧ (assignAll out.updates o).name = nm ∧
          nm ∉ usedInit doc so iu ih ∧ nm ≠ "") ∧
      (isDupB (dupNamesOf doc so iu ih) o = false → assignAll out.updates o = o) := by
  obtain ⟨h1, h2, h3, h4, h5⟩ := rename_apply_run h
  refine ⟨by rw [h1, applyUpdates_eq_map], ?_⟩
  intro o ho
  constructor
  · intro hdup
    have hmem : o.id ∈ out.updates.map Prod.fst :=
      (rename_update_id_iff h hids ho).mpr hdup
    obtain ⟨p, hp, hpid⟩ := List.mem_map.mp hmem
    refine ⟨p.2, ?_, ?_, (h3 p hp).1, (h3 p hp).2⟩
    · rw [show (o.id, p.2) = p by rw [← hpid]]
      exact hp
    · exact assignAll_name_of_mem o (rename_updates_fst_nodup h hids)
        (by rw [show (p.1, p.2) = p from rfl]; exact hp) hpid.symm
  · intro hnd
    apply assignAll_of_not_mem
    intro hmem
    rw [rename_update_id_iff h hids ho] at hmem
    rw [hmem] at hnd
    exact Bool.noConfusion hnd

theorem two_le_length_of_two_mem {α : Type} : ∀ {l : List α} {a b : α},
    a ∈ l → b ∈ l → a ≠ b → 2 ≤ l.length
  | [], a, _, ha, _, _ => absurd ha (List.not_mem_nil a)
  | x :: xs, a, b, ha, hb, hne => by
      rcases List.mem_cons.mp ha with h1 | h1
      · rcases List.mem_cons.mp hb with h2 | h2
        · exact absurd (h1.trans h2.symm) hne
        · have : xs ≠ [] := List.ne_nil_of_mem h2
          have : 0 < xs.length := List.length_pos.mpr this
          simp only [List.length_cons]
          omega
      · rcases List.mem_cons.mp hb with h2 | h2
        · have : xs ≠ [] := List.ne_nil_of_mem h1
          have : 0 < xs.length := List.length_pos.mpr this
          simp only [List.length_cons]
          omega
        · have := two_le_length_of_two_mem h1 h2 hne
          simp only [List.length_cons]
          omega

theorem two_le_count_census {ws : List RObj} {o₁ o₂ : RObj} (h1 : o₁ ∈ ws) (h2 : o₂ ∈ ws)
    (hne : o₁ ≠ o₂) {s : String} (e1 : fallbackName o₁.name = s)
    (e2 : fallbackName o₂.name = s) :
    1 < (ws.map (fun o => fallbackName o.name)).count s := by
  have hcp : (ws.map (fun o => fallbackName o.name)).count s =
      (ws.filter (fun o => fallbackName o.name == s)).length := by
    rw [List.count, List.countP_map, List.countP_eq_length_filter]
    rfl
  rw [hcp]
  apply two_le_length_of_two_mem _ _ hne
  · rw [List.mem_filter]
    exact ⟨h1, by simp [e1]⟩
  · rw [List.mem_filter]
    exact ⟨h2, by simp [e2]⟩

theorem isDupB_dupNamesOf (doc : List RObj) (so iu ih : Bool) (o : RObj) :
    isDupB (dupNamesOf doc so iu ih) o =
      decide (1 < (censusNames doc so iu ih).count (fallbackName o.name)) :=
  isDupB_dup_names _ o

theorem rename_final_census_inj {doc : List RObj} {so iu ih : Bool} {fmt : Nat → String}
    {fuel : Nat} {out : RenameOutcome}
    (h : rename_objects_unique doc so iu ih false fmt fuel = some out)
    (hids : (doc.map (fun o => o.id)).Nodup) :
    ∀ o₁ ∈ workingSet doc so iu ih, ∀ o₂ ∈ workingSet doc so iu ih, o₁ ≠ o₂ →
      fallbackName (assignAll out.updates o₁).name ≠
        fallbackName (assignAll out.updates o₂).name := by
  intro o₁ ho₁ o₂ ho₂ hne heq
  obtain ⟨_, hfin⟩ := rename_final_names h hids
  obtain ⟨hdup₁, hnd₁⟩ := hfin o₁ ho₁
  obtain ⟨hdup₂, hnd₂⟩ := hfin o₂ ho₂
  have hid_ne : o₁.id ≠ o₂.id := by
    intro hh
    exact hne (List.inj_on_of_nodup_map (ws_ids_nodup so iu ih hids) ho₁ ho₂ hh)
  cases hd1 : isDupB (dupNamesOf doc so iu ih) o₁ with
  | true =>
      obtain ⟨nm₁, hp₁, hn₁, hu₁, hne₁⟩ := hdup₁ hd1
      cases hd2 : isDupB (dupNamesOf doc so iu ih) o₂ with
      | true =>
          obtain ⟨nm₂, hp₂, hn₂, hu₂, hne₂⟩ := hdup₂ hd2
          rw [hn₁, hn₂, fallbackName_of_ne hne₁, fallbackName_of_ne hne₂] at heq
          have hpe : (o₁.id, nm₁) = (o₂.id, nm₂) := by
            apply List.inj_on_of_nodup_map (rename_apply_run h).2.2.2.1 hp₁ hp₂
            exact heq
          have := congrArg Prod.fst hpe
          exact hid_ne this
      | false =>
          rw [hnd₂ hd2] at heq
          rw [hn₁, fallbackName_of_ne hne₁] at heq
          apply hu₁
          rw [heq]
          exact census_mem_usedInit ho₂
  | false =>
      cases hd2 : isDupB (dupNamesOf doc so iu ih) o₂ with
      | true =>
          obtain ⟨nm₂, hp₂, hn₂, hu₂, hne₂⟩ := hdup₂ hd2
          rw [hnd₁ hd1] at heq
          rw [hn₂, fallbackName_of_ne hne₂] at heq
          apply hu₂
          rw [← heq]
          exact census_mem_usedInit ho₁
      | false =>
          rw [hnd₁ hd1, hnd₂ hd2] at heq
          have hcount := two_le_count_census ho₁ ho₂ hne heq rfl
          have hd2x := isDupB_dupNamesOf doc so iu ih o₂
          rw [hd2] at hd2x
          have hlt : 1 < (censusNames doc so iu ih).count (fallbackName o₂.name) := by
            unfold censusNames
            exact hcount
          rw [decide_eq_true hlt] at hd2x
          exact Bool.noConfusion hd2x


/-! ### Second-run and permutation lemmas -/

theorem out_doc_ids {doc : List RObj} {so iu ih : Bool} {fmt : Nat → String}
    {fuel : Nat} {out : RenameOutcome}
    (h : rename_objects_unique doc so iu ih false fmt fuel = some out) :
    out.doc.map (fun o => o.id) = doc.map (fun o => o.id) := by
  obtain ⟨h1, _, _, _, _⟩ := rename_apply_run h
  rw [h1, applyUpdates_eq_map, List.map_map]
  exact List.map_congr_left (fun a _ => assignAll_id _ _)

theorem rename_second_ws_census_nodup {doc : List RObj} {so iu ih : Bool}
    {fmt : Nat → String} {fuel : Nat} {out : RenameOutcome}
    (h : rename_objects_unique doc so iu ih false fmt fuel = some out)
    (hids : (doc.map (fun o => o.id)).Nodup) :
    ((workingSet out.doc so iu ih).map (fun o => fallbackName o.name)).Nodup := by
  obtain ⟨hdocmap, _⟩ := rename_final_names h hids
  have hids2 : (out.doc.map (fun o => o.id)).Nodup := by
    rw [out_doc_ids h]
    exact hids
  have hwsnd : (workingSet out.doc so iu ih).Nodup :=
    List.Nodup.of_map _ (ws_ids_nodup so iu ih hids2)
  apply List.Nodup.map_on ?_ hwsnd
  intro x hx y hy hxy
  have hx1 : x ∈ out.doc := (workingSet_sublist out.doc so iu ih).subset hx
  have hy1 : y ∈ out.doc := (workingSet_sublist out.doc so iu ih).subset hy
  rw [hdocmap] at hx1 hy1
  obtain ⟨x0, hx0, hxeq⟩ := List.mem_map.mp hx1
  obtain ⟨y0, hy0, hyeq⟩ := List.mem_map.mp hy1
  have horig : ∀ {z z0 : RObj}, z ∈ workingSet out.doc so iu ih → z0 ∈ doc →
      assignAll out.updates z0 = z → z0 ∈ workingSet doc so iu ih := by
    intro z z0 hz hz0 hzeq
    by_cases hzid : z0.id ∈ out.updates.map Prod.fst
    · obtain ⟨_, h2, _, _, _⟩ := rename_apply_run h
      rw [h2] at hzid
      obtain ⟨w, hw, hwid⟩ := List.mem_map.mp hzid
      rw [List.mem_filter] at hw
      have hwws : w ∈ workingSet doc so iu ih :=
        (List.perm_insertionSort keyLe _).subset hw.1
      have hwdoc : w ∈ doc := (workingSet_sublist doc so iu ih).subset hwws
      have hwz : w = z0 := List.inj_on_of_nodup_map hids hwdoc hz0 hwid
      rw [← hwz]
      exact hwws
    · have hzfix : assignAll out.updates z0 = z0 := assignAll_of_not_mem _ _ hzid
      have hzz0 : z = z0 := by rw [← hzeq, hzfix]
      have hzw := mem_workingSet.mp hz
      rw [hzz0] at hzw
      exact mem_workingSet.mpr ⟨hz0, hzw.2.1, hzw.2.2.1, hzw.2.2.2⟩
  have hx0ws := horig hx hx0 hxeq
  have hy0ws := horig hy hy0 hyeq
  by_cases hxy0 : x0 = y0
  · rw [← hxeq, ← hyeq, hxy0]
  · exfalso
    apply rename_final_census_inj h hids x0 hx0ws y0 hy0ws hxy0
    rw [hxeq, hyeq]
    exact hxy

theorem dupFilter_isEmpty_iff {xs : List String} :
    ((buildNameCounts xs).filter (fun p => p.2 > 1) = []) ↔ ∀ s, xs.count s ≤ 1 := by
  constructor
  · intro he s
    by_contra hgt
    push_neg at hgt
    have hl := lookup_dup_names xs s
    rw [he, if_pos hgt] at hl
    simp [List.lookup] at hl
  · intro hle
    rw [List.filter_eq_nil_iff]
    intro p hp
    have hl := mem_lookup_of_nodup (keys_nodup_buildNameCounts xs)
      (show (p.1, p.2) ∈ buildNameCounts xs by simpa using hp)
    rw [lookup_buildNameCounts] at hl
    by_cases h0 : xs.count p.1 = 0
    · rw [if_pos h0] at hl
      exact absurd hl (by simp)
    · rw [if_neg h0] at hl
      injection hl with hl
      have := hle p.1
      simp only [decide_eq_true_eq]
      omega

theorem rename_second_run {doc : List RObj} {so iu ih : Bool} {fmt : Nat → String}
    {fuel : Nat} {out : RenameOutcome}
    (h : rename_objects_unique doc so iu ih false fmt fuel = some out)
    (hids : (doc.map (fun o => o.id)).Nodup) (dry₂ : Bool) (fmt₂ : Nat → String)
    (fuel₂ : Nat) :
    ∃ out₂, rename_objects_unique out.doc so iu ih dry₂ fmt₂ fuel₂ = some out₂ ∧
      out₂.returned = 0 ∧ out₂.doc = out.doc ∧ out₂.updates = [] ∧ out₂.renamed = 0 := by
  have hnodup := rename_second_ws_census_nodup h hids
  simp only [rename_objects_unique]
  by_cases hc1 : (if so = true then out.doc.filter (fun o => o.selected) else out.doc).isEmpty
  · rw [if_pos hc1]
    exact ⟨_, rfl, rfl, rfl, rfl, rfl⟩
  · rw [if_neg hc1]
    by_cases hc2 : (applyNameFilters
        (if so = true then out.doc.filter (fun o => o.selected) else out.doc) iu ih).isEmpty
    · rw [if_pos hc2]
      exact ⟨_, rfl, rfl, rfl, rfl, rfl⟩
    · rw [if_neg hc2]
      have hdup : (buildNameCounts ((applyNameFilters
          (if so = true then out.doc.filter (fun o => o.selected) else out.doc) iu ih).map
            (fun o => fallbackName o.name))).filter (fun p => p.2 > 1) = [] := by
        apply dupFilter_isEmpty_iff.mpr
        intro s
        exact List.nodup_iff_count_le_one.mp hnodup s
      rw [hdup, if_pos List.isEmpty_nil]
      exact ⟨_, rfl, rfl, rfl, rfl, rfl⟩

theorem perm_toFinset {l₁ l₂ : List String} (hp : l₁.Perm l₂) :
    l₁.toFinset = l₂.toFinset := by
  apply Finset.ext
  intro a
  rw [List.mem_toFinset, List.mem_toFinset]
  exact hp.mem_iff

theorem perm_isEmpty_eq {α : Type} {l₁ l₂ : List α} (hp : l₁.Perm l₂) :
    l₁.isEmpty = l₂.isEmpty := by
  cases hb1 : l₁.isEmpty
  · cases hb2 : l₂.isEmpty
    · rfl
    · rw [List.isEmpty_iff] at hb2
      rw [hb2] at hp
      have h1 : l₁.isEmpty = true := List.isEmpty_iff.mpr hp.eq_nil
      rw [hb1] at h1
      exact h1
  · rw [List.isEmpty_iff] at hb1
    rw [hb1] at hp
    exact (List.isEmpty_iff.mpr hp.symm.eq_nil).symm

theorem applyNameFilters_perm {l₁ l₂ : List RObj} (hp : l₁.Perm l₂) (iu ih : Bool) :
    (applyNameFilters l₁ iu ih).Perm (applyNameFilters l₂ iu ih) := by
  unfold applyNameFilters
  cases iu <;> cases ih <;> simp only [Bool.false_eq_true, if_false, if_true]
  · exact (hp.filter _).filter _
  · exact hp.filter _
  · exact hp.filter _
  · exact hp

theorem addWorkingNames_eq_union : ∀ (counts : List (String × Nat)) (u : Finset String),
    addWorkingNames u counts = u ∪ ((counts.map Prod.fst).filter (fun s => s ≠ "")).toFinset
  | [], u => by simp [addWorkingNames]
  | p :: counts, u => by
      unfold addWorkingNames
      rw [List.foldl_cons]
      have hrec := addWorkingNames_eq_union counts (if p.1 ≠ "" then insert p.1 u else u)
      unfold addWorkingNames at hrec
      rw [hrec, List.map_cons, List.filter_cons]
      by_cases hp : p.1 ≠ ""
      · rw [if_pos hp, if_pos (by simpa using hp)]
        rw [List.toFinset_cons, Finset.insert_union, Finset.union_insert]
      · rw [if_neg hp, if_neg (by simpa using hp)]

theorem usedInit_perm {doc₁ doc₂ : List RObj} (hp : doc₁.Perm doc₂) (so iu ih : Bool) :
    usedInit doc₁ so iu ih = usedInit doc₂ so iu ih := by
  have hws : (workingSet doc₁ so iu ih).Perm (workingSet doc₂ so iu ih) := by
    unfold workingSet
    apply applyNameFilters_perm _ iu ih
    cases so
    · simpa using hp
    · simpa using hp.filter _
  have hcensus : (censusNames doc₁ so iu ih).Perm (censusNames doc₂ so iu ih) :=
    hws.map _
  unfold usedInit
  rw [addWorkingNames_eq_union, addWorkingNames_eq_union]
  have hbuild : _build_used_name_set doc₁ = _build_used_name_set doc₂ := by
    unfold _build_used_name_set
    exact perm_toFinset ((hp.filter _).map _)
  rw [hbuild]
  have hkeys : (((buildNameCounts (censusNames doc₁ so iu ih)).map Prod.fst).filter
      (fun s => s ≠ "")).toFinset =
      (((buildNameCounts (censusNames doc₂ so iu ih)).map Prod.fst).filter
        (fun s => s ≠ "")).toFinset := by
    apply Finset.ext
    intro s
    rw [List.mem_toFinset, List.mem_toFinset, List.mem_filter, List.mem_filter,
      mem_keys_buildNameCounts_iff, mem_keys_buildNameCounts_iff]
    rw [hcensus.mem_iff]
  rw [hkeys]


theorem insertionSort_eq_of_perm {l₁ l₂ : List RObj} (hp : l₁.Perm l₂)
    (hn : (l₁.map (fun o => o.id)).Nodup) :
    List.insertionSort keyLe l₁ = List.insertionSort keyLe l₂ := by
  apply sorted_perm_eq
  · exact (List.perm_insertionSort keyLe l₁).trans
      (hp.trans (List.perm_insertionSort keyLe l₂).symm)
  · exact List.sorted_insertionSort keyLe l₁
  · exact List.sorted_insertionSort keyLe l₂
  · intro a ha b hb hab hba
    have ha2 : a ∈ l₁ := (List.perm_insertionSort keyLe l₁).subset ha
    have hb2 : b ∈ l₁ := (List.perm_insertionSort keyLe l₁).subset hb
    obtain ⟨_, hid⟩ := keyLe_antisymm_key hab hba
    exact List.inj_on_of_nodup_map hn ha2 hb2 hid

theorem dupNames_lookup_perm {xs₁ xs₂ : List String} (hp : xs₁.Perm xs₂) (s : String) :
    ((buildNameCounts xs₁).filter (fun p => p.2 > 1)).lookup s =
      ((buildNameCounts xs₂).filter (fun p => p.2 > 1)).lookup s := by
  rw [lookup_dup_names, lookup_dup_names, hp.count_eq]

theorem rename_deterministic {doc₁ doc₂ : List RObj} {so iu ih dry : Bool}
    {fmt : Nat → String} {fuel : Nat} {out₁ out₂ : RenameOutcome}
    (hp : doc₁.Perm doc₂) (hids : (doc₁.map (fun o => o.id)).Nodup)
    (h₁ : rename_objects_unique doc₁ so iu ih dry fmt fuel = some out₁)
    (h₂ : rename_objects_unique doc₂ so iu ih dry fmt fuel = some out₂) :
    out₁.updates = out₂.updates ∧ out₁.returned = out₂.returned ∧
      out₁.renamed = out₂.renamed ∧ out₁.would_rename = out₂.would_rename := by
  simp only [rename_objects_unique] at h₁ h₂
  have hscope : (if so = true then doc₁.filter (fun o => o.selected) else doc₁).Perm
      (if so = true then doc₂.filter (fun o => o.selected) else doc₂) := by
    cases so
    · simpa using hp
    · simpa using hp.filter _
  have hwp := applyNameFilters_perm hscope iu ih
  have hE1 := perm_isEmpty_eq hscope
  by_cases hc1 : (if so = true then doc₁.filter (fun o => o.selected) else doc₁).isEmpty
  · rw [if_pos hc1] at h₁
    rw [if_pos (by rw [← hE1]; exact hc1)] at h₂
    have e1 := (Option.some.inj h₁).symm
    have e2 := (Option.some.inj h₂).symm
    subst e1
    subst e2
    exact ⟨rfl, rfl, rfl, rfl⟩
  · rw [if_neg hc1] at h₁
    rw [if_neg (by rw [← hE1]; exact hc1)] at h₂
    have hE2 := perm_isEmpty_eq hwp
    by_cases hc2 : (applyNameFilters
        (if so = true then doc₁.filter (fun o => o.selected) else doc₁) iu ih).isEmpty
    · rw [if_pos hc2] at h₁
      rw [if_pos (by rw [← hE2]; exact hc2)] at h₂
      have e1 := (Option.some.inj h₁).symm
      have e2 := (Option.some.inj h₂).symm
      subst e1
      subst e2
      exact ⟨rfl, rfl, rfl, rfl⟩
    · rw [if_neg hc2] at h₁
      rw [if_neg (by rw [← hE2]; exact hc2)] at h₂
      have hcp := hwp.map (fun o => fallbackName o.name)
      by_cases hdup1 : (buildNameCounts ((applyNameFilters
          (if so = true then doc₁.filter (fun o => o.selected) else doc₁) iu ih).map
            (fun o => fallbackName o.name))).filter (fun p => p.2 > 1) = []
      · have hdup2 := dupFilter_isEmpty_iff.mpr
          (fun s => by rw [← hcp.count_eq]; exact dupFilter_isEmpty_iff.mp hdup1 s)
        rw [if_pos (List.isEmpty_iff.mpr hdup1)] at h₁
        rw [if_pos (List.isEmpty_iff.mpr hdup2)] at h₂
        have e1 := (Option.some.inj h₁).symm
        have e2 := (Option.some.inj h₂).symm
        subst e1
        subst e2
        exact ⟨rfl, rfl, rfl, rfl⟩
      · have hdup2 : ¬ ((buildNameCounts ((applyNameFilters
            (if so = true then doc₂.filter (fun o => o.selected) else doc₂) iu ih).map
              (fun o => fallbackName o.name))).filter (fun p => p.2 > 1) = []) := by
          intro hh
          exact hdup1 (dupFilter_isEmpty_iff.mpr
            (fun s => by rw [hcp.count_eq]; exact dupFilter_isEmpty_iff.mp hh s))
        rw [if_neg (fun hh => hdup1 (List.isEmpty_iff.mp hh))] at h₁
        rw [if_neg (fun hh => hdup2 (List.isEmpty_iff.mp hh))] at h₂
        -- align h₂'s loop with h₁'s
        have hlk : ∀ s, ((buildNameCounts ((applyNameFilters
            (if so = true then doc₂.filter (fun o => o.selected) else doc₂) iu ih).map
              (fun o => fallbackName o.name))).filter (fun p => p.2 > 1)).lookup s =
            ((buildNameCounts ((applyNameFilters
            (if so = true then doc₁.filter (fun o => o.selected) else doc₁) iu ih).map
              (fun o => fallbackName o.name))).filter (fun p => p.2 > 1)).lookup s :=
          fun s => dupNames_lookup_perm hcp.symm s
        have hws1 : ((applyNameFilters
            (if so = true then doc₁.filter (fun o => o.selected) else doc₁) iu ih).map
              (fun o => o.id)).Nodup :=
          ws_ids_nodup so iu ih hids
        have hws2 : ((applyNameFilters
            (if so = true then doc₂.filter (fun o => o.selected) else doc₂) iu ih).map
              (fun o => o.id)).Nodup :=
          (hwp.map (fun o => o.id)).nodup_iff.mp hws1
        have hsort : List.insertionSort keyLe (applyNameFilters
            (if so = true then doc₂.filter (fun o => o.selected) else doc₂) iu ih) =
            List.insertionSort keyLe (applyNameFilters
            (if so = true then doc₁.filter (fun o => o.selected) else doc₁) iu ih) :=
          insertionSort_eq_of_perm hwp.symm hws2
        have husede : (addWorkingNames (_build_used_name_set doc₁)
            (buildNameCounts ((applyNameFilters
              (if so = true then doc₁.filter (fun o => o.selected) else doc₁) iu ih).map
                (fun o => fallbackName o.name))) : Finset String) =
            addWorkingNames (_build_used_name_set doc₂)
            (buildNameCounts ((applyNameFilters
              (if so = true then doc₂.filter (fun o => o.selected) else doc₂) iu ih).map
                (fun o => fallbackName o.name))) :=
          usedInit_perm hp so iu ih
        rw [renameLoop_congr hlk fmt dry fuel _ _, hsort, ← husede] at h₂
        split at h₁
        · exact absurd h₁ (by simp)
        · rename_i st heq
          split at h₂
          · rename_i heq₂
            rw [heq] at heq₂
            exact absurd heq₂ (by simp)
          · rename_i st₂ heq₂
            have hst : st₂ = st := Option.some.inj (heq₂.symm.trans heq)
            rw [hst] at h₂
            cases dry
            · simp only [Bool.false_eq_true, if_false] at h₁ h₂
              have e1 := (Option.some.inj h₁).symm
              have e2 := (Option.some.inj h₂).symm
              subst e1
              subst e2
              exact ⟨rfl, rfl, rfl, rfl⟩
            · rw [if_pos rfl] at h₁ h₂
              have e1 := (Option.some.inj h₁).symm
              have e2 := (Option.some.inj h₂).symm
              subst e1
              subst e2
              exact ⟨rfl, rfl, rfl, rfl⟩


/-! ### Dry-run and empty-input top-level lemmas -/

theorem rename_dry_main {dup : List (String × Nat)} {fmt : Nat → String} {fuel : Nat}
    {os : List RObj} {u0 : Finset String} {st : LoopSt}
    (hloop : renameLoop dup fmt false fuel os ⟨⟨u0, fun _ => 1⟩, ∅, 0, 0, []⟩ = some st) :
    renameLoop dup fmt true fuel os ⟨⟨u0, fun _ => 1⟩, ∅, 0, 0, []⟩ =
      some ⟨st.uniq, st.assigned_base_once, 0, st.renamed, []⟩ := by
  obtain ⟨hdry, _⟩ := renameLoop_dry_of_apply hloop ⟨⟨u0, fun _ => 1⟩, ∅, 0, 0, []⟩ rfl rfl
  exact hdry.trans (by rw [Nat.sub_zero, Nat.zero_add])

theorem rename_dry_of_apply {doc : List RObj} {so iu ih : Bool} {fmt : Nat → String}
    {fuel : Nat} {out : RenameOutcome}
    (h : rename_objects_unique doc so iu ih false fmt fuel = some out) :
    ∃ outD, rename_objects_unique doc so iu ih true fmt fuel = some outD ∧
      outD.doc = doc ∧ outD.returned = 0 ∧ outD.updates = [] ∧
      outD.would_rename = out.returned := by
  simp only [rename_objects_unique] at h ⊢
  by_cases hc1 : (if so = true then doc.filter (fun o => o.selected) else doc).isEmpty
  · rw [if_pos hc1] at h ⊢
    have e := (Option.some.inj h).symm
    subst e
    exact ⟨_, rfl, rfl, rfl, rfl, rfl⟩
  · rw [if_neg hc1] at h ⊢
    by_cases hc2 : (applyNameFilters
        (if so = true then doc.filter (fun o => o.selected) else doc) iu ih).isEmpty
    · rw [if_pos hc2] at h ⊢
      have e := (Option.some.inj h).symm
      subst e
      exact ⟨_, rfl, rfl, rfl, rfl, rfl⟩
    · rw [if_neg hc2] at h ⊢
      by_cases hc3 : ((buildNameCounts ((applyNameFilters
          (if so = true then doc.filter (fun o => o.selected) else doc) iu ih).map
            (fun o => fallbackName o.name))).filter (fun p => p.2 > 1)).isEmpty
      · rw [if_pos hc3] at h ⊢
        have e := (Option.some.inj h).symm
        subst e
        exact ⟨_, rfl, rfl, rfl, rfl, rfl⟩
      · rw [if_neg hc3] at h ⊢
        split at h
        · exact absurd h (by simp)
        · rename_i st hloop
          simp only [Bool.false_eq_true, if_false] at h
          have e := (Option.some.inj h).symm
          subst e
          rw [rename_dry_main hloop]
          exact ⟨_, rfl, rfl, rfl, rfl, rfl⟩

theorem rename_dry_doc_unchanged {doc : List RObj} {so iu ih : Bool} {fmt : Nat → String}
    {fuel : Nat} {outD : RenameOutcome}
    (h : rename_objects_unique doc so iu ih true fmt fuel = some outD) :
    outD.doc = doc ∧ outD.returned = 0 := by
  simp only [rename_objects_unique] at h
  by_cases hc1 : (if so = true then doc.filter (fun o => o.selected) else doc).isEmpty
  · rw [if_pos hc1] at h
    have e := (Option.some.inj h).symm
    subst e
    exact ⟨rfl, rfl⟩
  · rw [if_neg hc1] at h
    by_cases hc2 : (applyNameFilters
        (if so = true then doc.filter (fun o => o.selected) else doc) iu ih).isEmpty
    · rw [if_pos hc2] at h
      have e := (Option.some.inj h).symm
      subst e
      exact ⟨rfl, rfl⟩
    · rw [if_neg hc2] at h
      by_cases hc3 : ((buildNameCounts ((applyNameFilters
          (if so = true then doc.filter (fun o => o.selected) else doc) iu ih).map
            (fun o => fallbackName o.name))).filter (fun p => p.2 > 1)).isEmpty
      · rw [if_pos hc3] at h
        have e := (Option.some.inj h).symm
        subst e
        exact ⟨rfl, rfl⟩
      · rw [if_neg hc3] at h
        split at h
        · exact absurd h (by simp)
        · simp only [if_true] at h
          have e := (Option.some.inj h).symm
          subst e
          exact ⟨rfl, rfl⟩

theorem rename_empty_ws {doc : List RObj} {so iu ih : Bool} (dry : Bool)
    (fmt : Nat → String) (fuel : Nat)
    (hws : workingSet doc so iu ih = []) :
    ∃ out, rename_objects_unique doc so iu ih dry fmt fuel = some out ∧
      out.returned = 0 ∧ out.stats = [] ∧ out.doc = doc ∧ out.updates = [] ∧
      (out.message = some "No objects found." ∨
        out.message = some "No named objects found.") := by
  simp only [rename_objects_unique]
  by_cases hc1 : (if so = true then doc.filter (fun o => o.selected) else doc).isEmpty
  · rw [if_pos hc1]
    exact ⟨_, rfl, rfl, rfl, rfl, rfl, Or.inl rfl⟩
  · rw [if_neg hc1]
    have hc2 : (applyNameFilters
        (if so = true then doc.filter (fun o => o.selected) else doc) iu ih).isEmpty = true := by
      apply List.isEmpty_iff.mpr
      unfold workingSet at hws
      exact hws
    rw [if_pos hc2]
    exact ⟨_, rfl, rfl, rfl, rfl, rfl, Or.inr rfl⟩

/-! ### Census-fallback lemmas -/

theorem countsOf_buildNameCounts (xs : List String) (s : String) :
    countsOf (buildNameCounts xs) s = xs.count s := by
  unfold countsOf
  rw [lookup_buildNameCounts]
  by_cases h0 : xs.count s = 0
  · rw [if_pos h0, h0]
    rfl
  · rw [if_neg h0]
    rfl

theorem count_map_eq_filter_length (ws : List RObj) (f : RObj → String) (s : String) :
    (ws.map f).count s = (ws.filter (fun o => f o == s)).length := by
  rw [List.count, List.countP_map, List.countP_eq_length_filter]
  rfl

theorem strippedTruthy_ne_empty {nm : String} (h : strippedTruthy nm = true) : nm ≠ "" := by
  intro he
  rw [he] at h
  exact Bool.noConfusion h

theorem workingSet_no_unnamed {doc : List RObj} {so ih : Bool} {o : RObj}
    (ho : o ∈ workingSet doc so false ih) : o.name ≠ "" := by
  have := (mem_workingSet.mp ho).2.2.1 rfl
  exact strippedTruthy_ne_empty this

theorem stats_ids_no_unnamed {doc : List RObj} {so ih : Bool} {o : RObj}
    (ho : o ∈ (get_object_name_stats doc so false ih).2.2) : o.name ≠ "" := by
  simp only [get_object_name_stats, Bool.false_eq_true, if_false] at ho
  by_cases hc : (if so = true then doc.filter (fun o => o.selected) else doc).isEmpty
  · rw [if_pos hc] at ho
    exact absurd ho (List.not_mem_nil o)
  · rw [if_neg hc] at ho
    have ho2 : o ∈ List.filter (fun o => strippedTruthy o.name)
        (if ih = true then (if so = true then doc.filter (fun o => o.selected) else doc)
         else (if so = true then doc.filter (fun o => o.selected) else doc).filter
           (fun o => !o.hidden && !o.locked)) := ho
    rw [List.mem_filter] at ho2
    exact strippedTruthy_ne_empty ho2.2

theorem stats_counts_raw (doc : List RObj) (so iu ih : Bool) :
    (get_object_name_stats doc so iu ih).1 =
      buildNameCounts (((get_object_name_stats doc so iu ih).2.2).map (fun o => o.name)) := by
  simp only [get_object_name_stats]
  by_cases hc : (if so = true then doc.filter (fun o => o.selected) else doc).isEmpty
  · rw [if_pos hc]
    rfl
  · rw [if_neg hc]


/-! ### Claim theorems -/

/-- Claim C1 (counterexample): on the spec's own example — three "Wall"
objects with ids A < B < C and one "Door" — the first "Wall" does **not**
keep the bare name "Wall": every duplicate receives a suffix, and the
renamed count is 3, not 2.  The base name is always in the document-wide
used-name set (the duplicates themselves bear it), so the keep-the-base
branch never fires. -/
theorem claim_C1_counterexample :
    (rename_objects_unique
        [⟨"A", "Wall", false, false, false⟩, ⟨"B", "Wall", false, false, false⟩,
         ⟨"C", "Wall", false, false, false⟩, ⟨"D", "Door", false, false, false⟩]
        false true true false default_suffix_fmt 10).map
      (fun out => (out.returned, out.doc.map (fun o => (o.id, o.name)))) =
      some (3, [("A", "Wall 001"), ("B", "Wall 002"), ("C", "Wall 003"), ("D", "Door")]) ∧
    ¬ ((rename_objects_unique
        [⟨"A", "Wall", false, false, false⟩, ⟨"B", "Wall", false, false, false⟩,
         ⟨"C", "Wall", false, false, false⟩, ⟨"D", "Door", false, false, false⟩]
        false true true false default_suffix_fmt 10).map
      (fun out => (out.returned, out.doc.map (fun o => (o.id, o.name)))) =
      some (2, [("A", "Wall"), ("B", "Wall 001"), ("C", "Wall 002"), ("D", "Door")])) := by
  decide

/-- Claim C1 (amended): in apply mode every duplicate-group member, taken in
(current name, GUID) sort order, is renamed — none keeps the unsuffixed base
name — and on the spec's example the assignment is A→"Wall 001",
B→"Wall 002", C→"Wall 003" with renamed count 3, Door untouched. -/
theorem claim_C1_amended :
    ((rename_objects_unique
        [⟨"A", "Wall", false, false, false⟩, ⟨"B", "Wall", false, false, false⟩,
         ⟨"C", "Wall", false, false, false⟩, ⟨"D", "Door", false, false, false⟩]
        false true true false default_suffix_fmt 10).map
      (fun out => (out.returned, out.updates)) =
      some (3, [("A", "Wall 001"), ("B", "Wall 002"), ("C", "Wall 003")])) ∧
    ∀ (doc : List RObj) (so iu ih : Bool) (fmt : Nat → String) (fuel : Nat)
      (out : RenameOutcome),
      rename_objects_unique doc so iu ih false fmt fuel = some out →
      out.updates.map Prod.fst =
        ((List.insertionSort keyLe (workingSet doc so iu ih)).filter
          (fun o => isDupB (dupNamesOf doc so iu ih) o)).map (fun o => o.id) := by
  constructor
  · decide
  · intro doc so iu ih fmt fuel out h
    exact (rename_apply_run h).2.1

/-- Witness for the amended C1 theorem at a concrete two-duplicate document. -/
theorem claim_C1_witness :
    (rename_objects_unique
        [⟨"X", "P", false, false, false⟩, ⟨"Y", "P", false, false, false⟩]
        false true true false default_suffix_fmt 5).map
      (fun out => out.updates.map Prod.fst) = some ["X", "Y"] := by
  cases hr : rename_objects_unique
      [⟨"X", "P", false, false, false⟩, ⟨"Y", "P", false, false, false⟩]
      false true true false default_suffix_fmt 5 with
  | none => exact absurd hr (by decide)
  | some out =>
      have h := claim_C1_amended.2 _ false true true default_suffix_fmt 5 out hr
      show some (out.updates.map Prod.fst) = some ["X", "Y"]
      rw [h]
      decide

/-- Claim C2: after an apply-mode run on a document with distinct GUIDs,
every assigned name names exactly one object of the full final document
(the renamed object itself), and no two distinct working-set objects share
a final name unless neither belonged to a duplicate group of the pre-run
census (the premise is in fact impossible, so the conclusion holds). -/
theorem claim_C2_global_uniqueness {doc : List RObj} {so iu ih : Bool}
    {fmt : Nat → String} {fuel : Nat} {out : RenameOutcome}
    (h : rename_objects_unique doc so iu ih false fmt fuel = some out)
    (hids : (doc.map (fun o => o.id)).Nodup) :
    ((out.doc.map (fun o => o.id)).Nodup ∧
      ∀ p ∈ out.updates, ∀ o ∈ out.doc, (o.name = p.2 ↔ o.id = p.1)) ∧
    (∀ o₁ ∈ out.doc, ∀ o₂ ∈ out.doc,
      o₁.id ∈ (workingSet doc so iu ih).map (fun w => w.id) →
      o₂.id ∈ (workingSet doc so iu ih).map (fun w => w.id) →
      o₁.id ≠ o₂.id → o₁.name = o₂.name →
      (∀ w ∈ workingSet doc so iu ih, (w.id = o₁.id ∨ w.id = o₂.id) →
        isDupB (dupNamesOf doc so iu ih) w = false)) := by
  obtain ⟨hdocmap, _⟩ := rename_final_names h hids
  have hfst := rename_updates_fst_nodup h hids
  obtain ⟨_, _, h3, h4, _⟩ := rename_apply_run h
  constructor
  · constructor
    · rw [out_doc_ids h]
      exact hids
    · intro p hp o hoD
      rw [hdocmap] at hoD
      obtain ⟨o0, ho0, heq⟩ := List.mem_map.mp hoD
      subst heq
      constructor
      · intro hname
        rw [assignAll_id]
        by_contra hne
        by_cases hin : o0.id ∈ out.updates.map Prod.fst
        · obtain ⟨q, hq, hqid⟩ := List.mem_map.mp hin
          have hqn : (assignAll out.updates o0).name = q.2 :=
            assignAll_name_of_mem o0 hfst
              (show (q.1, q.2) ∈ out.updates by rw [Prod.mk.eta]; exact hq) hqid.symm
          have hq2 : q.2 = p.2 := by rw [← hqn, hname]
          have hqp : q = p := List.inj_on_of_nodup_map h4 hq hp hq2
          apply hne
          rw [← hqp]
          exact hqid.symm
        · have hfix := assignAll_of_not_mem _ _ hin
          rw [hfix] at hname
          have hne2 : o0.name ≠ "" := by
            rw [hname]
            exact (h3 p hp).2
          have hmem := docname_mem_usedInit so iu ih ho0 hne2
          rw [hname] at hmem
          exact (h3 p hp).1 hmem
      · intro hid
        rw [assignAll_id] at hid
        exact assignAll_name_of_mem o0 hfst
          (show (p.1, p.2) ∈ out.updates by rw [Prod.mk.eta]; exact hp) hid
  · intro o₁ ho₁ o₂ ho₂ hw₁ hw₂ hidne hname
    exfalso
    rw [hdocmap] at ho₁ ho₂
    obtain ⟨a, ha, haeq⟩ := List.mem_map.mp ho₁
    obtain ⟨b, hb, hbeq⟩ := List.mem_map.mp ho₂
    subst haeq
    subst hbeq
    obtain ⟨w₁, hw₁ws, hw₁id⟩ := List.mem_map.mp hw₁
    obtain ⟨w₂, hw₂ws, hw₂id⟩ := List.mem_map.mp hw₂
    have ha_ws : a ∈ workingSet doc so iu ih := by
      have hww : w₁ = a := by
        apply List.inj_on_of_nodup_map hids
          ((workingSet_sublist doc so iu ih).subset hw₁ws) ha
        rw [hw₁id, assignAll_id]
      rw [← hww]
      exact hw₁ws
    have hb_ws : b ∈ workingSet doc so iu ih := by
      have hww : w₂ = b := by
        apply List.inj_on_of_nodup_map hids
          ((workingSet_sublist doc so iu ih).subset hw₂ws) hb
        rw [hw₂id, assignAll_id]
      rw [← hww]
      exact hw₂ws
    have hab : a ≠ b := by
      intro hh
      apply hidne
      rw [hh]
    exact rename_final_census_inj h hids a ha_ws b hb_ws hab (congrArg fallbackName hname)

/-- Witness for C2 at a concrete document with one duplicate pair. -/
theorem claim_C2_witness :
    ((⟨"a", "T 001", false, false, false⟩ : RObj).name = "T 001" ↔
      (⟨"a", "T 001", false, false, false⟩ : RObj).id = "a") := by
  cases hr : rename_objects_unique
      [⟨"a", "T", false, false, false⟩, ⟨"b", "T", false, false, false⟩]
      false true true false default_suffix_fmt 5 with
  | none => exact absurd hr (by decide)
  | some out =>
      have hupd : out.updates = [("a", "T 001"), ("b", "T 002")] := by
        have h1 : (rename_objects_unique
            [⟨"a", "T", false, false, false⟩, ⟨"b", "T", false, false, false⟩]
            false true true false default_suffix_fmt 5).map (fun o => o.updates) =
            some out.updates := by rw [hr]; rfl
        have h2 : (rename_objects_unique
            [⟨"a", "T", false, false, false⟩, ⟨"b", "T", false, false, false⟩]
            false true true false default_suffix_fmt 5).map (fun o => o.updates) =
            some [("a", "T 001"), ("b", "T 002")] := by decide
        exact Option.some.inj (h1.symm.trans h2)
      have hdoc : out.doc = [⟨"a", "T 001", false, false, false⟩,
          ⟨"b", "T 002", false, false, false⟩] := by
        have h1 : (rename_objects_unique
            [⟨"a", "T", false, false, false⟩, ⟨"b", "T", false, false, false⟩]
            false true true false default_suffix_fmt 5).map (fun o => o.doc) =
            some out.doc := by rw [hr]; rfl
        have h2 : (rename_objects_unique
            [⟨"a", "T", false, false, false⟩, ⟨"b", "T", false, false, false⟩]
            false true true false default_suffix_fmt 5).map (fun o => o.doc) =
            some [⟨"a", "T 001", false, false, false⟩,
              ⟨"b", "T 002", false, false, false⟩] := by decide
        exact Option.some.inj (h1.symm.trans h2)
      exact (claim_C2_global_uniqueness hr (by decide)).1.2 ("a", "T 001")
        (by rw [hupd]; exact List.mem_cons_self _ _)
        ⟨"a", "T 001", false, false, false⟩
        (by rw [hdoc]; exact List.mem_cons_self _ _)

/-- Claim C3: dry-run purity — a dry run never changes the document and
returns a zero count, and when the apply run succeeds, the dry run succeeds
too with a "would rename" counter equal to the apply run's returned renamed
count, for the same inputs. -/
theorem claim_C3_dry_run_purity (doc : List RObj) (so iu ih : Bool)
    (fmt : Nat → String) (fuel : Nat) :
    (∀ outD, rename_objects_unique doc so iu ih true fmt fuel = some outD →
      outD.doc = doc ∧ outD.returned = 0) ∧
    (∀ out, rename_objects_unique doc so iu ih false fmt fuel = some out →
      ∃ outD, rename_objects_unique doc so iu ih true fmt fuel = some outD ∧
        outD.doc = doc ∧ outD.would_rename = out.returned) := by
  constructor
  · intro outD hD
    exact rename_dry_doc_unchanged hD
  · intro out h
    obtain ⟨outD, hD, h1, _, _, h4⟩ := rename_dry_of_apply h
    exact ⟨outD, hD, h1, h4⟩

/-- Witness for C3 at a concrete duplicate pair: the dry run leaves the
document unchanged and would rename 2 objects, matching the apply run. -/
theorem claim_C3_witness :
    ∃ outD, rename_objects_unique
        [⟨"m", "K", false, false, false⟩, ⟨"n", "K", false, false, false⟩]
        false true true true default_suffix_fmt 5 = some outD ∧
      outD.doc = [⟨"m", "K", false, false, false⟩, ⟨"n", "K", false, false, false⟩] ∧
      outD.would_rename = 2 := by
  cases hr : rename_objects_unique
      [⟨"m", "K", false, false, false⟩, ⟨"n", "K", false, false, false⟩]
      false true true false default_suffix_fmt 5 with
  | none => exact absurd hr (by decide)
  | some out =>
      obtain ⟨outD, hD, h1, h2⟩ := (claim_C3_dry_run_purity
        [⟨"m", "K", false, false, false⟩, ⟨"n", "K", false, false, false⟩]
        false true true default_suffix_fmt 5).2 out hr
      refine ⟨outD, hD, h1, ?_⟩
      rw [h2]
      have ha : (rename_objects_unique
          [⟨"m", "K", false, false, false⟩, ⟨"n", "K", false, false, false⟩]
          false true true false default_suffix_fmt 5).map (fun o => o.returned) =
          some out.returned := by rw [hr]; rfl
      have hb : (rename_objects_unique
          [⟨"m", "K", false, false, false⟩, ⟨"n", "K", false, false, false⟩]
          false true true false default_suffix_fmt 5).map (fun o => o.returned) =
          some 2 := by decide
      exact Option.some.inj (ha.symm.trans hb)

/-- Claim C4: idempotence — after a successful apply-mode run on a document
with distinct GUIDs, running again on the resulting document (same
parameters, any fuel) performs zero renames and leaves it unchanged. -/
theorem claim_C4_idempotence {doc : List RObj} {so iu ih : Bool}
    {fmt : Nat → String} {fuel : Nat} {out : RenameOutcome}
    (h : rename_objects_unique doc so iu ih false fmt fuel = some out)
    (hids : (doc.map (fun o => o.id)).Nodup) (fuel₂ : Nat) :
    ∃ out₂, rename_objects_unique out.doc so iu ih false fmt fuel₂ = some out₂ ∧
      out₂.returned = 0 ∧ out₂.updates = [] ∧ out₂.doc = out.doc := by
  obtain ⟨out₂, h₂, hr, hd, hu, _⟩ := rename_second_run h hids false fmt fuel₂
  exact ⟨out₂, h₂, hr, hu, hd⟩

/-- Witness for C4: the second run on the concretely renamed document is a
no-op. -/
theorem claim_C4_witness :
    ∃ out₂, rename_objects_unique
        [⟨"p", "W 001", false, false, false⟩, ⟨"q", "W 002", false, false, false⟩]
        false true true false default_suffix_fmt 5 = some out₂ ∧
      out₂.returned = 0 ∧ out₂.updates = [] ∧
      out₂.doc = [⟨"p", "W 001", false, false, false⟩,
        ⟨"q", "W 002", false, false, false⟩] := by
  cases hr : rename_objects_unique
      [⟨"p", "W", false, false, false⟩, ⟨"q", "W", false, false, false⟩]
      false true true false default_suffix_fmt 5 with
  | none => exact absurd hr (by decide)
  | some out =>
      have hdoc : out.doc = [⟨"p", "W 001", false, false, false⟩,
          ⟨"q", "W 002", false, false, false⟩] := by
        have h1 : (rename_objects_unique
            [⟨"p", "W", false, false, false⟩, ⟨"q", "W", false, false, false⟩]
            false true true false default_suffix_fmt 5).map (fun o => o.doc) =
            some out.doc := by rw [hr]; rfl
        have h2 : (rename_objects_unique
            [⟨"p", "W", false, false, false⟩, ⟨"q", "W", false, false, false⟩]
            false true true false default_suffix_fmt 5).map (fun o => o.doc) =
            some [⟨"p", "W 001", false, false, false⟩,
              ⟨"q", "W 002", false, false, false⟩] := by decide
        exact Option.some.inj (h1.symm.trans h2)
      obtain ⟨out₂, h₂, hret, hupd, hdoc₂⟩ := claim_C4_idempotence hr (by decide) 5
      rw [hdoc] at h₂ hdoc₂
      exact ⟨out₂, h₂, hret, hupd, hdoc₂⟩

/-- Claim C5: deterministic assignment — two runs over permuted documents
containing the same objects (same names, same GUIDs, GUIDs distinct) make
byte-identical rename decisions: identical update lists and counters,
independent of the host's enumeration order, thanks to the
(current name, GUID) sort. -/
theorem claim_C5_deterministic {doc₁ doc₂ : List RObj} {so iu ih dry : Bool}
    {fmt : Nat → String} {fuel : Nat} {out₁ out₂ : RenameOutcome}
    (hp : doc₁.Perm doc₂) (hids : (doc₁.map (fun o => o.id)).Nodup)
    (h₁ : rename_objects_unique doc₁ so iu ih dry fmt fuel = some out₁)
    (h₂ : rename_objects_unique doc₂ so iu ih dry fmt fuel = some out₂) :
    out₁.updates = out₂.updates ∧ out₁.returned = out₂.returned ∧
      out₁.would_rename = out₂.would_rename := by
  obtain ⟨a, b, _, d⟩ := rename_deterministic hp hids h₁ h₂
  exact ⟨a, b, d⟩

/-- Witness for C5: the same two-object document enumerated in both orders
yields identical rename decisions. -/
theorem claim_C5_witness :
    (rename_objects_unique
        [⟨"a", "T", false, false, false⟩, ⟨"b", "T", false, false, false⟩]
        false true true false default_suffix_fmt 5).map (fun o => o.updates) =
    (rename_objects_unique
        [⟨"b", "T", false, false, false⟩, ⟨"a", "T", false, false, false⟩]
        false true true false default_suffix_fmt 5).map (fun o => o.updates) := by
  cases hr₁ : rename_objects_unique
      [⟨"a", "T", false, false, false⟩, ⟨"b", "T", false, false, false⟩]
      false true true false default_suffix_fmt 5 with
  | none => exact absurd hr₁ (by decide)
  | some out₁ =>
      cases hr₂ : rename_objects_unique
          [⟨"b", "T", false, false, false⟩, ⟨"a", "T", false, false, false⟩]
          false true true false default_suffix_fmt 5 with
      | none => exact absurd hr₂ (by decide)
      | some out₂ =>
          have h := claim_C5_deterministic (by decide) (by decide) hr₁ hr₂
          show some out₁.updates = some out₂.updates
          rw [h.1]


/-- Claim C6 (counterexample): `_next_unique_with_cache` — the uniquifier
that takes a used-name set and a cursor — does **not** return the base
unchanged when the base is absent from the used-name set: with an empty
used-name set it still returns the suffixed candidate "Wall 001". -/
theorem claim_C6_counterexample :
    ("Wall" ∉ (∅ : Finset String)) ∧
    (_next_unique_with_cache "Wall" default_suffix_fmt ⟨∅, fun _ => 1⟩ 1).map Prod.fst =
      some "Wall 001" ∧
    ("Wall 001" : String) ≠ "Wall" := by
  decide

/-- Claim C6 (amended): the base-preservation rule belongs to
`next_unique_name`, the compatibility uniquifier that queries the live
document: when the (fallback-substituted) base name is not in use, it is
returned unchanged, for every start suffix and fuel. -/
theorem claim_C6_amended {doc : List RObj} {base0 : String} {fmt : Nat → String}
    {start_at fuel : Nat}
    (h : name_in_use doc (fallbackName base0) = false) :
    next_unique_name doc base0 fmt start_at fuel = some (fallbackName base0) := by
  simp [next_unique_name, h]

/-- Witness for the amended C6 theorem: "Wall" is unused in a document
holding only a "Door", so it is returned unchanged. -/
theorem claim_C6_witness :
    next_unique_name [⟨"A", "Door", false, false, false⟩] "Wall"
      default_suffix_fmt 2 5 = some (fallbackName "Wall") :=
  claim_C6_amended (by decide)

/-- Claim C7: `_next_unique_with_cache` postcondition — starting from the
recorded cursor (the initial cursor function is constantly 1, modelling the
`.get(base, 1)` default), it returns the first candidate `base ++ fmt n`
not in the used set, every earlier candidate being in the set, reserves the
winner in the used set, advances the per-base cursor to `n + 1` (strictly
increasing), and no subsequent successful call can hand out the same
candidate again. -/
theorem claim_C7_postcondition {base0 : String} {fmt : Nat → String} {st : UniqState}
    {fuel : Nat} {c : String} {st' : UniqState}
    (h : _next_unique_with_cache base0 fmt st fuel = some (c, st')) :
    ∃ n, st.next_suffix (fallbackName base0) ≤ n ∧
      c = fallbackName base0 ++ fmt n ∧ c ∉ st.used ∧
      (∀ k, st.next_suffix (fallbackName base0) ≤ k → k < n →
        fallbackName base0 ++ fmt k ∈ st.used) ∧
      st'.used = insert c st.used ∧
      st'.next_suffix (fallbackName base0) = n + 1 ∧
      st.next_suffix (fallbackName base0) < st'.next_suffix (fallbackName base0) ∧
      (∀ (b₂ : String) (fmt₂ : Nat → String) (fuel₂ : Nat) (c₂ : String)
        (st₂ : UniqState),
        _next_unique_with_cache b₂ fmt₂ st' fuel₂ = some (c₂, st₂) → c₂ ≠ c) := by
  obtain ⟨n, h1, h2, h3, h4, h5, h6⟩ := _next_unique_with_cache_spec h
  refine ⟨n, h1, h2, h3, h4, h5, ?_, ?_, ?_⟩
  · rw [h6, Function.update_same]
  · rw [h6, Function.update_same]
    omega
  · intro b₂ fmt₂ fuel₂ c₂ st₂ h₂ hcc
    obtain ⟨m, _, _, hnotin₂, _, _, _⟩ := _next_unique_with_cache_spec h₂
    apply hnotin₂
    rw [hcc, h5]
    exact Finset.mem_insert_self _ _

/-- Witness for C7 at a concrete call: from used set `{"Wall"}` and cursor 1,
the call returns "Wall 001", which was not in the used set. -/
theorem claim_C7_witness :
    (_next_unique_with_cache "Wall" default_suffix_fmt ⟨{"Wall"}, fun _ => 1⟩ 3).map
      Prod.fst = some "Wall 001" ∧
    "Wall 001" ∉ ({"Wall"} : Finset String) := by
  have h := claim_C7_postcondition
    (show _next_unique_with_cache "Wall" default_suffix_fmt ⟨{"Wall"}, fun _ => 1⟩ 3 =
      some ("Wall 001", ⟨insert "Wall 001" {"Wall"},
        Function.update (fun _ => 1) (fallbackName "Wall") 2⟩) from rfl)
  obtain ⟨n, _, _, h3, _⟩ := h
  exact ⟨rfl, h3⟩

/-- Claim C8 (counterexample): the read-only statistics report does **not**
count unnamed objects under "Object": a document with a single unnamed
object yields a census keyed by the raw empty name. -/
theorem claim_C8_counterexample :
    ((get_object_name_stats [⟨"A", "", false, false, false⟩] false true true).1.lookup
      "Object" = none) ∧
    ((get_object_name_stats [⟨"A", "", false, false, false⟩] false true true).1.lookup
      "" = some 1) := by
  decide

/-- Claim C8 (amended): the "Object" fallback applies to the rename census
only — its count for "Object" is the number of objects whose name is empty
(or literally "Object") — while the statistics report counts unnamed objects
under their raw empty name; with include_unnamed=False both the rename
working set and the report's id list exclude every empty-named object. -/
theorem claim_C8_amended :
    (∀ ws : List RObj,
      countsOf (buildNameCounts (ws.map (fun o => fallbackName o.name))) "Object" =
        (ws.filter (fun o => fallbackName o.name == "Object")).length) ∧
    (∀ (doc : List RObj) (so ih : Bool) (o : RObj),
      o ∈ workingSet doc so false ih → o.name ≠ "") ∧
    (∀ (doc : List RObj) (so ih : Bool) (o : RObj),
      o ∈ (get_object_name_stats doc so false ih).2.2 → o.name ≠ "") ∧
    (∀ (doc : List RObj) (so iu ih : Bool),
      countsOf ((get_object_name_stats doc so iu ih).1) "" =
        (((get_object_name_stats doc so iu ih).2.2).filter (fun o => o.name == "")).length) ∧
    fallbackName "" = "Object" := by
  refine ⟨?_, ?_, ?_, ?_, rfl⟩
  · intro ws
    rw [countsOf_buildNameCounts, count_map_eq_filter_length]
  · intro doc so ih o ho
    exact workingSet_no_unnamed ho
  · intro doc so ih o ho
    exact stats_ids_no_unnamed ho
  · intro doc so iu ih
    rw [stats_counts_raw, countsOf_buildNameCounts, count_map_eq_filter_length]

/-- Witness for the amended C8 theorem: an unnamed object and a "Beam" give
rename-census count 1 for "Object", and a named working-set member of an
include_unnamed=False run has a non-empty name. -/
theorem claim_C8_witness :
    countsOf (buildNameCounts (([⟨"u1", "", false, false, false⟩,
        ⟨"u2", "Beam", false, false, false⟩] : List RObj).map
          (fun o => fallbackName o.name))) "Object" = 1 ∧
    (⟨"u3", "Slab", false, false, false⟩ : RObj).name ≠ "" := by
  constructor
  · rw [claim_C8_amended.1]
    decide
  · exact claim_C8_amended.2.1 [⟨"u3", "Slab", false, false, false⟩] false true
      ⟨"u3", "Slab", false, false, false⟩ (by decide)

/-- Claim C9: an empty working set (nothing matched the scope and filters)
is a no-op, not a failure — the call succeeds, returns `(0, {})`, changes
nothing, records no updates, and emits a "no objects found" report line. -/
theorem claim_C9_empty_input {doc : List RObj} {so iu ih : Bool} (dry : Bool)
    (fmt : Nat → String) (fuel : Nat)
    (hws : workingSet doc so iu ih = []) :
    ∃ out, rename_objects_unique doc so iu ih dry fmt fuel = some out ∧
      out.returned = 0 ∧ out.stats = [] ∧ out.doc = doc ∧ out.updates = [] ∧
      (out.message = some "No objects found." ∨
        out.message = some "No named objects found.") :=
  rename_empty_ws dry fmt fuel hws

/-- Witness for C9 on the empty document. -/
theorem claim_C9_witness :
    ∃ out, rename_objects_unique ([] : List RObj) false true true false
        default_suffix_fmt 5 = some out ∧
      out.returned = 0 ∧ out.stats = [] ∧ out.doc = ([] : List RObj) ∧
      out.updates = [] ∧
      (out.message = some "No objects found." ∨
        out.message = some "No named objects found.") :=
  claim_C9_empty_input false default_suffix_fmt 5 (by decide)

/-- Claim C10: termination of the uniquifier search — when the suffix format
is injective (distinct integers give distinct suffix strings, hence distinct
candidates), some fuel makes `_next_unique_with_cache` succeed, the used set
being a finite `Finset`; and the precondition is essential: a format that
ignores the integer, once its lone candidate is in the used set, makes the
search return `none` at every fuel, i.e. the `while True` loop never
terminates. -/
theorem claim_C10_termination :
    (∀ (base0 : String) (fmt : Nat → String) (st : UniqState),
      Function.Injective fmt →
      ∃ fuel c st', _next_unique_with_cache base0 fmt st fuel = some (c, st')) ∧
    (∀ (base0 sfx : String) (st : UniqState),
      fallbackName base0 ++ sfx ∈ st.used →
      ∀ fuel, _next_unique_with_cache base0 (fun _ => sfx) st fuel = none) := by
  constructor
  · intro base0 fmt st hinj
    obtain ⟨m, hm1, hm2, hm3⟩ := exists_free_candidate (fallbackName base0) fmt hinj
      st.used (st.next_suffix (fallbackName base0))
    obtain ⟨r, hr⟩ := _next_unique_search_succeeds (st.used.card + 1)
      ⟨m, hm1, by omega, hm3⟩
    refine ⟨st.used.card + 1, r.1,
      ⟨insert r.1 st.used,
        Function.update st.next_suffix (fallbackName base0) (r.2 + 1)⟩, ?_⟩
    simp only [_next_unique_with_cache]
    rw [hr]
  · intro base0 sfx st hmem fuel
    simp only [_next_unique_with_cache]
    have hnone : ∀ (f n : Nat),
        _next_unique_search (fallbackName base0) (fun _ => sfx) st.used n f = none := by
      intro f
      induction f with
      | zero => intro n; rfl
      | succ f ih =>
          intro n
          simp only [_next_unique_search]
          rw [if_pos hmem]
          exact ih (n + 1)
    rw [hnone fuel _]

/-- Witness for C10: an injective format (n copies of x) terminates from an
empty used set, and the constant format " 001" loops forever once
"Wall 001" is taken. -/
theorem claim_C10_witness :
    (∃ fuel c st', _next_unique_with_cache "Wall"
        (fun n => String.mk (List.replicate n 'x')) ⟨∅, fun _ => 1⟩ fuel =
        some (c, st')) ∧
    _next_unique_with_cache "Wall" (fun _ => " 001")
      ⟨{"Wall 001"}, fun _ => 1⟩ 5 = none := by
  constructor
  · apply claim_C10_termination.1 "Wall" _ ⟨∅, fun _ => 1⟩
    intro a b hab
    have h := congrArg (fun s : String => s.data.length) hab
    simpa using h
  · exact claim_C10_termination.2 "Wall" " 001" ⟨{"Wall 001"}, fun _ => 1⟩ (by decide) 5

end RhinoToolkit
